import Mathlib

/-!
Verification of the forgecraft-mcp template-composition engine.

Each definition below is a shallow embedding of a function from the
repository source (file and function named in its doc comment).  Pure
string/list logic is translated directly; filesystem and network effects
are replaced by explicit parameters.  JavaScript string primitives
(`split`, `trim`, `startsWith`) are modelled by structurally recursive
functions on character lists so that concrete inputs evaluate in the
kernel.  The template renderer's source file is absent from the checked
sources (only its test suite exists), so it is modelled from the
specification; every such definition is marked in its doc comment.
Theorems at the end of the file settle the specification claims against
these definitions.
-/

namespace Forge

-- ═════════════════════════════════════════════════════════════════════
-- JavaScript string primitives
-- ═════════════════════════════════════════════════════════════════════

/-- JS `s.split("\n")`, on the character list.  The accumulator holds the
current segment reversed. -/
def splitNlChars : List Char → List Char → List (List Char)
  | [], acc => [acc.reverse]
  | c :: rest, acc =>
    if c = '\n' then acc.reverse :: splitNlChars rest []
    else splitNlChars rest (c :: acc)

/-- JS `s.split("\n")`: the list of lines of `s` (empty string gives
`[""]`, like JavaScript). -/
def splitLines (s : String) : List String :=
  (splitNlChars s.data []).map String.mk

/-- JS `s.trim()` on a character list: drop whitespace at both ends. -/
def trimChars (cs : List Char) : List Char :=
  ((cs.dropWhile Char.isWhitespace).reverse.dropWhile Char.isWhitespace).reverse

/-- JS `s.trim()`. -/
def trimStr (s : String) : String := String.mk (trimChars s.data)

/-- JS `s.startsWith(p)`. -/
def startsWithStr (p s : String) : Bool := p.data.isPrefixOf s.data

/-- Split a character list at the first occurrence of the pattern `pat`:
returns the part before the occurrence and the part after it. -/
def splitSeq (pat : List Char) : List Char → Option (List Char × List Char)
  | [] => none
  | c :: rest =>
    if pat.isPrefixOf (c :: rest) then some ([], (c :: rest).drop pat.length)
    else
      match splitSeq pat rest with
      | some (pre, tail) => some (c :: pre, tail)
      | none => none

lemma splitSeq_length_lt (pat : List Char) (hp : pat ≠ []) :
    ∀ (cs pre tail : List Char), splitSeq pat cs = some (pre, tail) →
      tail.length < cs.length := by
  intro cs
  induction cs with
  | nil => intro pre tail h; simp [splitSeq] at h
  | cons c rest ih =>
    intro pre tail h
    unfold splitSeq at h
    by_cases hpre : pat.isPrefixOf (c :: rest) = true
    · simp only [hpre, if_true, Option.some.injEq, Prod.mk.injEq] at h
      rcases h with ⟨_, h2⟩
      subst h2
      have hlen : 1 ≤ pat.length := by
        cases pat with
        | nil => exact absurd rfl hp
        | cons a as => simp
      simp only [List.length_drop, List.length_cons]
      omega
    · simp only [hpre, Bool.false_eq_true, if_false] at h
      cases hsp : splitSeq pat rest with
      | none => rw [hsp] at h; simp at h
      | some pr =>
        rw [hsp] at h
        rcases pr with ⟨pre2, tail2⟩
        simp only [Option.some.injEq, Prod.mk.injEq] at h
        rcases h with ⟨_, h2⟩
        subst h2
        have := ih pre2 tail2 hsp
        simp only [List.length_cons]
        omega

lemma dropWhile_length_le {α : Type} (p : α → Bool) (l : List α) :
    (l.dropWhile p).length ≤ l.length := by
  induction l with
  | nil => simp
  | cons x xs ih =>
    by_cases h : p x
    · simp only [List.dropWhile_cons, h, if_true, List.length_cons]
      omega
    · simp only [Bool.not_eq_true] at h
      simp [List.dropWhile_cons, h]

/-- One step of a first-occurrence-wins deduplication loop: append the
element unless its key was already seen. -/
def dedupStep {α : Type} (key : α → String) (acc : List α) (x : α) : List α :=
  if (acc.map key).contains (key x) then acc else acc ++ [x]

/-- First-occurrence-wins deduplication keyed by a string, mirroring the
`seen : Set<string>` loops used throughout the source. -/
def dedupBy {α : Type} (key : α → String) (l : List α) : List α :=
  l.foldl (dedupStep key) []

-- ═════════════════════════════════════════════════════════════════════
-- Merge engine: src/shared/filesystem.ts, mergeInstructionFiles
-- ═════════════════════════════════════════════════════════════════════

/-- A line recognized as a second- or third-level heading
(`l.startsWith("## ") || l.startsWith("### ")` in the source). -/
def isCustomHeader (l : String) : Bool :=
  startsWithStr "## " l || startsWithStr "### " l

/-- The set of trimmed heading lines of the generated text
(`generatedHeaders` in `mergeInstructionFiles`). -/
def generatedHeaders (generated : String) : List String :=
  ((splitLines generated).filter isCustomHeader).map trimStr

/-- Scan state of the line-by-line walk in `mergeInstructionFiles`:
captured sections so far, the `inCustomSection` flag, and the lines of the
section currently being captured. -/
structure MergeScan where
  sections : List String
  inCustom : Bool
  current : List String
deriving Repr, DecidableEq

/-- One step of the loop body of `mergeInstructionFiles`. -/
def mergeStep (headers : List String) (st : MergeScan) (line : String) : MergeScan :=
  if isCustomHeader line then
    let sections :=
      if st.inCustom && !st.current.isEmpty then
        st.sections ++ [String.intercalate "\n" st.current]
      else st.sections
    let inCustom := !(headers.contains (trimStr line))
    { sections := sections, inCustom := inCustom,
      current := if inCustom then [line] else [] }
  else if st.inCustom then
    { st with current := st.current ++ [line] }
  else st

/-- The flush after the loop in `mergeInstructionFiles`. -/
def mergeFinal (st : MergeScan) : List String :=
  if st.inCustom && !st.current.isEmpty then
    st.sections ++ [String.intercalate "\n" st.current]
  else st.sections

/-- The list of custom sections captured from `existing`, exactly as
computed by the loop of `mergeInstructionFiles`. -/
def customSections (existing generated : String) : List String :=
  mergeFinal ((splitLines existing).foldl
    (mergeStep (generatedHeaders generated)) ⟨[], false, []⟩)

/-- The fixed separator inserted between generated content and preserved
custom sections. -/
def mergeSeparator : String :=
  "\n\n<!-- Custom Sections (preserved from previous file) -->\n\n"

/-- `mergeInstructionFiles` from src/shared/filesystem.ts. -/
def mergeInstructionFiles (existing generated : String) : String :=
  let cs := customSections existing generated
  if cs.isEmpty then generated
  else generated ++ mergeSeparator ++ String.intercalate "\n\n" cs

/-- Reference section-span decomposition: a span begins at any line that
is a second- or third-level heading and runs until the next such heading
line or end of text (lines before the first heading belong to no span). -/
def spans : List String → List (List String)
  | [] => []
  | l :: ls =>
    if isCustomHeader l then
      (l :: ls.takeWhile (fun x => !isCustomHeader x)) ::
        spans (ls.dropWhile (fun x => !isCustomHeader x))
    else spans ls
termination_by ls => ls.length
decreasing_by
  · simp only [List.length_cons]
    exact Nat.lt_succ_of_le (dropWhile_length_le _ _)
  · simp

/-- The spans of the existing text whose (trimmed) heading line is absent
from the generated heading set. -/
def customSpans (headers : List String) (lines : List String) : List (List String) :=
  (spans lines).filter (fun s =>
    match s with
    | [] => false
    | l :: _ => !(headers.contains (trimStr l)))

-- ═════════════════════════════════════════════════════════════════════
-- Renderer: src/registry/renderer.ts (file absent from the checked
-- sources; modelled from the specification and the renderer test suite)
-- ═════════════════════════════════════════════════════════════════════

/-- A character allowed in a placeholder or predicate name. -/
def identChar (c : Char) : Bool := c.isAlphanum || c = '_'

/-- Modelled from the spec: the renderer source file
src/registry/renderer.ts is missing; the alternate word-separated casing
of a context field name (`project_name` or `project-name` resolving to
`projectName`). -/
def camelAux : Bool → List Char → List Char
  | _, [] => []
  | up, c :: rest =>
    if c = '_' || c = '-' then camelAux true rest
    else (if up then c.toUpper else c) :: camelAux false rest

/-- Modelled from the spec: word-separated spelling to native camelCase
field-name spelling. -/
def snakeToCamel (s : String) : String := String.mk (camelAux false s.data)

/-- Modelled from the spec: the render context as a flat record of
substitution values (field name to value). -/
def RenderCtx : Type := List (String × String)

/-- Modelled from the spec: resolve a placeholder name against the
context, in either the native field-name casing or the word-separated
alternate casing. -/
def resolveVar (ctx : RenderCtx) (name : String) : Option String :=
  match List.lookup name ctx with
  | some v => some v
  | none => List.lookup (snakeToCamel name) ctx

/-- The characters of the keyword introducing a placeholder default. -/
def defaultMarker : List Char := ['d', 'e', 'f', 'a', 'u', 'l', 't', ':']

/-- The two-character opening placeholder delimiter. -/
def openBraces : List Char := ['{', '{']

/-- The two-character closing placeholder delimiter. -/
def closeBraces : List Char := ['}', '}']

/-- Modelled from the spec: substitute one placeholder whose inner text
(between the double-brace delimiters) is `inner`.  Whitespace inside the
delimiters is insignificant; an unresolved placeholder with a default is
replaced by the default; an unresolved placeholder with no default is
left unchanged. -/
def renderPlaceholder (ctx : RenderCtx) (inner : List Char) : List Char :=
  let unresolved := '{' :: '{' :: (inner ++ ['}', '}'])
  match splitSeq ['|'] inner with
  | some (namePart, afterBar) =>
    match resolveVar ctx (String.mk (trimChars namePart)) with
    | some v => v.data
    | none =>
      let d := trimChars afterBar
      if defaultMarker.isPrefixOf d then trimChars (d.drop defaultMarker.length)
      else unresolved
  | none =>
    match resolveVar ctx (String.mk (trimChars inner)) with
    | some v => v.data
    | none => unresolved

/-- Modelled from the spec: variable-substitution pass over the document,
replacing each double-brace placeholder.  Written with an explicit fuel
argument (structural recursion) so that concrete inputs evaluate in the
kernel; the fuel never runs out when it bounds the input length. -/
def substFuel (ctx : RenderCtx) : Nat → List Char → List Char
  | 0, cs => cs
  | _ + 1, [] => []
  | fuel + 1, c :: rest =>
    if openBraces.isPrefixOf (c :: rest) then
      match splitSeq closeBraces (rest.drop 1) with
      | some (inner, tail) => renderPlaceholder ctx inner ++ substFuel ctx fuel tail
      | none => c :: substFuel ctx fuel rest
    else c :: substFuel ctx fuel rest

/-- The variable-substitution pass. -/
def substAux (ctx : RenderCtx) (cs : List Char) : List Char :=
  substFuel ctx cs.length cs

/-- Modelled from the spec: the fixed small set of boolean conditions a
conditional block may test; unknown predicates evaluate to false. -/
def evalPredicate (ctx : RenderCtx) (p : String) : Bool :=
  if p = "language_is_typescript" then List.lookup "language" ctx == some "typescript"
  else if p = "language_is_python" then List.lookup "language" ctx == some "python"
  else false

/-- The six characters opening a conditional block. -/
def ifMarker : List Char := ['{', '{', '#', 'i', 'f', ' ']

/-- The seven characters closing a conditional block. -/
def endIfMarker : List Char := ['{', '{', '/', 'i', 'f', '}', '}']

/-- Modelled from the spec: conditional-block pass.  Each block is
evaluated independently; a false predicate removes the block including
its delimiters, a true predicate removes only the delimiter markers.
Written with an explicit fuel argument (structural recursion) so that
concrete inputs evaluate in the kernel. -/
def condFuel (ctx : RenderCtx) : Nat → List Char → List Char
  | 0, cs => cs
  | _ + 1, [] => []
  | fuel + 1, c :: rest =>
    if ifMarker.isPrefixOf (c :: rest) then
      match splitSeq closeBraces (rest.drop 4) with
      | some (predPart, afterPred) =>
        match splitSeq endIfMarker afterPred with
        | some (content, tail) =>
          (if evalPredicate ctx (String.mk (trimChars predPart)) then content
           else []) ++ condFuel ctx fuel tail
        | none => c :: condFuel ctx fuel rest
      | none => c :: condFuel ctx fuel rest
    else c :: condFuel ctx fuel rest

/-- The conditional-block pass. -/
def processConds (ctx : RenderCtx) (cs : List Char) : List Char :=
  condFuel ctx cs.length cs

/-- Modelled from the spec: `renderTemplate` from src/registry/renderer.ts
(file missing from the checked sources) — conditional blocks first, then
variable substitution. -/
def renderTemplate (template : String) (ctx : RenderCtx) : String :=
  String.mk (substAux ctx (processConds ctx template.data))

/-- The opening placeholder delimiter as a string. -/
def phOpen : String := String.mk openBraces

/-- The closing placeholder delimiter as a string. -/
def phClose : String := String.mk closeBraces

/-- A placeholder with the given name. -/
def placeholder (name : String) : String := phOpen ++ name ++ phClose

/-- A conditional block guarded by predicate `p` with body `content`. -/
def ifBlock (p content : String) : String :=
  String.mk ifMarker ++ p ++ phClose ++ content ++ String.mk endIfMarker

/-- A character of running text that contains no template syntax at all
(neither a brace nor the conditional-marker hash). -/
def plainTextChar (c : Char) : Bool := !(c == '#') && !(c == '{')

-- ═════════════════════════════════════════════════════════════════════
-- MCP discovery: src/registry/mcp-discovery.ts
-- ═════════════════════════════════════════════════════════════════════

/-- Where a server recommendation was discovered. -/
inductive McpSource where
  | builtin
  | remote
deriving Repr, DecidableEq

/-- A raw MCP server entry from YAML or the remote registry. -/
structure McpServerEntry where
  name : String
  description : String
  command : String
  args : List String
  env : List (String × String)
  tags : List String
  category : String
  url : String
  tier : String
deriving Repr, DecidableEq

/-- A normalized server recommendation. -/
structure McpServerRecommendation where
  name : String
  description : String
  command : String
  args : List String
  env : List (String × String)
  relevantTags : List String
  category : String
  url : String
  source : McpSource
  tier : String
deriving Repr, DecidableEq

/-- `entryToRecommendation` from src/registry/mcp-discovery.ts. -/
def entryToRecommendation (e : McpServerEntry) (source : McpSource) :
    McpServerRecommendation :=
  { name := e.name, description := e.description, command := e.command,
    args := e.args, env := e.env, relevantTags := e.tags,
    category := e.category, url := e.url, source := source, tier := e.tier }

/-- `DefaultMcpDiscoveryService.loadLocalServers`: collect the entries of
every requested tag's template set in request order and deduplicate by
name, first occurrence wins.  The loaded template sets (an effect of the
loader, whose source reads YAML files) are passed as a function from tag
to the optional `mcpServers.servers` list. -/
def loadLocalServers (templates : String → Option (List McpServerEntry))
    (tags : List String) : List McpServerRecommendation :=
  (dedupBy (fun e => e.name)
      ((tags.map (fun t => (templates t).getD [])).flatten)).map
    (fun e => entryToRecommendation e .builtin)

/-- The possible outcomes of the remote registry fetch in
`DefaultMcpDiscoveryService.fetchRemoteServers`: a network error or
timeout abort, a non-success HTTP status, a body missing the `servers`
array, or a good payload. -/
inductive RemoteOutcome where
  | fetchFailed
  | httpError (status : Nat)
  | missingServers
  | ok (servers : List McpServerEntry)
deriving Repr, DecidableEq

/-- Whether the remote outcome is one of the failure cases. -/
def RemoteOutcome.isFailure : RemoteOutcome → Bool
  | .ok _ => false
  | _ => true

/-- `DefaultMcpDiscoveryService.fetchRemoteServers`: on a good payload,
keep the servers whose tags overlap the requested tags; every failure is
caught, logged, and yields the empty list. -/
def fetchRemoteServers (tags : List String) (outcome : RemoteOutcome) :
    List McpServerRecommendation :=
  match outcome with
  | .ok entries =>
    (entries.filter (fun e => e.tags.any (fun t => tags.contains t))).map
      (fun e => entryToRecommendation e .remote)
  | _ => []

/-- The comparator of `deduplicateServers`: more matching tags first,
then by name. -/
def recLE (a b : McpServerRecommendation) : Bool :=
  if b.relevantTags.length < a.relevantTags.length then true
  else if a.relevantTags.length < b.relevantTags.length then false
  else a.name ≤ b.name

/-- `DefaultMcpDiscoveryService.deduplicateServers`: local entries first
(higher priority), remote entries fill gaps, then sort by relevance. -/
def deduplicateServers (localRecs remoteRecs : List McpServerRecommendation) :
    List McpServerRecommendation :=
  (dedupBy (fun r => r.name) (localRecs ++ remoteRecs)).mergeSort recLE

/-- Options accepted by `discoverServers`. -/
structure McpDiscoveryOptions where
  includeRemote : Bool
  remoteRegistryUrl : Option String
deriving Repr, DecidableEq

/-- `DefaultMcpDiscoveryService.discoverServers`: load local servers,
optionally fetch remote ones (only when a registry URL is configured),
and deduplicate with local priority.  The remote fetch outcome is an
explicit parameter. -/
def discoverServers (templates : String → Option (List McpServerEntry))
    (defaultRegistryUrl : String) (tags : List String)
    (opts : McpDiscoveryOptions) (outcome : RemoteOutcome) :
    List McpServerRecommendation :=
  let localServers := loadLocalServers templates tags
  let registryUrl := (opts.remoteRegistryUrl).getD defaultRegistryUrl
  let remoteServers :=
    if opts.includeRemote && !(registryUrl == "") then
      fetchRemoteServers tags outcome
    else []
  deduplicateServers localServers remoteServers

-- ═════════════════════════════════════════════════════════════════════
-- Tool handlers
-- ═════════════════════════════════════════════════════════════════════

/-- Tag normalization of `generateInstructionsHandler`
(src/tools/generate-claude-md.ts, lines 54-56): prepend the UNIVERSAL tag
unless the caller already included it. -/
def generateInstructionsTags (tags : List String) : List String :=
  if tags.contains "UNIVERSAL" then tags else "UNIVERSAL" :: tags

/-- Tag normalization of `scaffoldProjectHandler`
(src/tools/scaffold.ts, lines 64-66): identical to the one in
`generateInstructionsHandler`. -/
def scaffoldProjectTags (tags : List String) : List String :=
  if tags.contains "UNIVERSAL" then tags else "UNIVERSAL" :: tags

/-- A JSON-like value as stored in .claude/settings.json. -/
inductive SettingsVal where
  | str (s : String)
  | strList (l : List String)
  | obj (fields : List (String × SettingsVal))
  | num (n : Int)
  | flag (b : Bool)

/-- JS object-spread merge of two records: keys of `a` in order with the
value from `b` when `b` also has the key, then the keys only in `b`, in
order.  This is the meaning of the object literal with two spreads used
in `configureMcpHandler`. -/
def jsObjMerge {α : Type} (a b : List (String × α)) : List (String × α) :=
  a.map (fun p =>
      match List.lookup p.1 b with
      | some v => (p.1, v)
      | none => p)
    ++ b.filter (fun p => (List.lookup p.1 a).isNone)

/-- The object stored under key `k`, or the empty record — the meaning of
`(existing[k] as Record) ?? {}` on a parseable settings record. -/
def objAt (k : String) (o : List (String × SettingsVal)) :
    List (String × SettingsVal) :=
  match List.lookup k o with
  | some (.obj fields) => fields
  | _ => []

/-- The string list stored under `allow`, or the empty list — the meaning
of `(perms["allow"] as string[]) ?? []`. -/
def allowAt (o : List (String × SettingsVal)) : List String :=
  match List.lookup "allow" o with
  | some (.strList l) => l
  | _ => []

/-- The existing-settings merge step of `configureMcpHandler`
(src/tools/configure-mcp.ts): spread the existing record, override
`permissions` with the existing permissions whose `allow` list becomes
the de-duplicated union of existing and new rules, and override
`mcpServers` with the spread of existing servers then newly configured
servers. -/
def configMergeSettings (existing : List (String × SettingsVal))
    (mcpConfig : List (String × SettingsVal))
    (permissionRules : List String) : List (String × SettingsVal) :=
  let existingPerms := objAt "permissions" existing
  let existingAllow := allowAt existingPerms
  let mergedAllow := dedupBy (fun s => s) (existingAllow ++ permissionRules)
  let existingServers := objAt "mcpServers" existing
  jsObjMerge existing
    [("permissions", .obj (jsObjMerge existingPerms
        [("allow", .strList mergedAllow)])),
     ("mcpServers", .obj (jsObjMerge existingServers mcpConfig))]

/-- The tags treated as handling sensitive data
(src/analyzers/project-context.ts, `detectSensitiveData`). -/
def sensitiveTags : List String := ["HEALTHCARE", "HIPAA", "FINTECH", "SOC2"]

/-- `detectSensitiveData` from src/analyzers/project-context.ts. -/
def detectSensitiveData (tags : List String) : String :=
  if tags.any (fun t => sensitiveTags.contains t) then "YES" else "NO"

/-- The render context produced by `detectProjectContext`. -/
structure ProjectRenderContext where
  projectName : String
  language : String
  tags : List String
  repoUrl : String
  framework : Option String
  domain : Option String
  sensitiveData : String
deriving Repr, DecidableEq

/-- `detectProjectContext` from src/analyzers/project-context.ts.  The
filesystem- and git-dependent detections (`detectRepoUrl`,
`detectFramework`) are passed in as parameters; the function assembles
the context record, deriving `sensitiveData` from the tags. -/
def detectProjectContext (repoUrl : String) (framework : Option String)
    (projectName language : String) (tags : List String)
    (description : Option String) : ProjectRenderContext :=
  { projectName := projectName, language := language, tags := tags,
    repoUrl := repoUrl, framework := framework, domain := description,
    sensitiveData := detectSensitiveData tags }

-- ═════════════════════════════════════════════════════════════════════
-- Lemmas: merge engine scan
-- ═════════════════════════════════════════════════════════════════════

-- A scan state that is guaranteed to yield a nonempty section list.
def scanAlive (st : MergeScan) : Prop :=
  st.sections ≠ [] ∨ (st.inCustom = true ∧ st.current ≠ [])

lemma mergeStep_alive (headers : List String) (st : MergeScan) (line : String)
    (h : scanAlive st) : scanAlive (mergeStep headers st line) := by
  unfold mergeStep
  rcases h with hs | ⟨hc, hcur⟩
  · by_cases hl : isCustomHeader line = true
    · simp only [hl, if_true]
      left
      by_cases hp : st.inCustom && !st.current.isEmpty
      · simp [hp]
      · simp only [Bool.not_eq_true] at hp
        simp [hp, hs]
    · simp only [Bool.not_eq_true] at hl
      simp only [hl, Bool.false_eq_true, if_false]
      by_cases hc : st.inCustom = true
      · simp [hc]
        left; exact hs
      · simp only [Bool.not_eq_true] at hc
        simp [hc]
        left; exact hs
  · by_cases hl : isCustomHeader line = true
    · simp only [hl, if_true]
      left
      simp [hc, hcur]
    · simp only [Bool.not_eq_true] at hl
      simp only [hl, Bool.false_eq_true, if_false, hc, if_true]
      right
      refine ⟨rfl, ?_⟩
      simp

lemma mergeStep_absent (headers : List String) (st : MergeScan) (line : String)
    (h1 : isCustomHeader line = true)
    (h2 : headers.contains (trimStr line) = false) :
    scanAlive (mergeStep headers st line) := by
  unfold mergeStep
  simp only [h1, if_true, h2]
  right
  simp

lemma foldl_mergeStep_alive (headers : List String) (lines : List String) :
    ∀ st : MergeScan, scanAlive st →
      scanAlive (lines.foldl (mergeStep headers) st) := by
  induction lines with
  | nil => intro st h; exact h
  | cons l ls ih =>
    intro st h
    exact ih _ (mergeStep_alive headers st l h)

lemma foldl_mergeStep_absent (headers : List String) (lines : List String)
    (h : ∃ l ∈ lines, isCustomHeader l = true ∧
          headers.contains (trimStr l) = false) :
    ∀ st : MergeScan, scanAlive (lines.foldl (mergeStep headers) st) := by
  induction lines with
  | nil => rcases h with ⟨l, hl, _⟩; exact absurd hl (List.not_mem_nil l)
  | cons x xs ih =>
    intro st
    rcases h with ⟨l, hl, h1, h2⟩
    rcases List.mem_cons.mp hl with rfl | hmem
    · exact foldl_mergeStep_alive headers xs _ (mergeStep_absent headers st l h1 h2)
    · exact ih ⟨l, hmem, h1, h2⟩ _

lemma mergeFinal_ne_nil (st : MergeScan) (h : scanAlive st) :
    mergeFinal st ≠ [] := by
  unfold mergeFinal
  rcases h with hs | ⟨hc, hcur⟩
  · by_cases hp : st.inCustom && !st.current.isEmpty
    · simp [hp]
    · simp only [Bool.not_eq_true] at hp
      simp [hp, hs]
  · simp [hc, hcur]

lemma mergeStep_matched_dead (headers : List String) (secs : List String)
    (line : String)
    (h : isCustomHeader line = true → headers.contains (trimStr line) = true) :
    mergeStep headers ⟨secs, false, []⟩ line = ⟨secs, false, []⟩ := by
  unfold mergeStep
  by_cases hl : isCustomHeader line = true
  · simp only [hl, if_true]
    simp [h hl]
    exact List.elem_iff.mp (h hl)
  · simp only [Bool.not_eq_true] at hl
    simp [hl]

lemma foldl_mergeStep_dead (headers : List String) (lines : List String)
    (secs : List String)
    (h : ∀ l ∈ lines, isCustomHeader l = true →
          headers.contains (trimStr l) = true) :
    lines.foldl (mergeStep headers) ⟨secs, false, []⟩ = ⟨secs, false, []⟩ := by
  induction lines with
  | nil => rfl
  | cons x xs ih =>
    have hx := h x (List.mem_cons_self x xs)
    simp only [List.foldl_cons, mergeStep_matched_dead headers secs x hx]
    exact ih (fun l hl => h l (List.mem_cons_of_mem x hl))

lemma contains_false_of_not_mem (l : List String) (a : String) (h : a ∉ l) :
    l.contains a = false := by
  by_contra hc
  simp only [Bool.not_eq_false] at hc
  exact h (List.elem_iff.mp hc)

lemma contains_true_of_mem (l : List String) (a : String) (h : a ∈ l) :
    l.contains a = true := List.elem_iff.mpr h

-- ═════════════════════════════════════════════════════════════════════
-- Claim C1
-- ═════════════════════════════════════════════════════════════════════

/-- C1: if the existing text contains at least one second- or third-level
heading line absent (after trimming) from the generated heading set, then
the merge result is the generated text followed by the fixed separator
comment line, followed by the captured custom sections joined by a blank
line, in the order they were captured from the existing text. -/
theorem merge_appends_custom_sections (existing generated : String)
    (h : ∃ l ∈ splitLines existing, isCustomHeader l = true ∧
          trimStr l ∉ generatedHeaders generated) :
    mergeInstructionFiles existing generated =
      generated ++ mergeSeparator ++
        String.intercalate "\n\n" (customSections existing generated) := by
  rcases h with ⟨l, hl, h1, h2⟩
  have hcontains := contains_false_of_not_mem _ _ h2
  have halive : scanAlive ((splitLines existing).foldl
      (mergeStep (generatedHeaders generated)) ⟨[], false, []⟩) :=
    foldl_mergeStep_absent _ _ ⟨l, hl, h1, hcontains⟩ _
  have hne : customSections existing generated ≠ [] :=
    mergeFinal_ne_nil _ halive
  unfold mergeInstructionFiles
  have : (customSections existing generated).isEmpty = false := by
    cases hcs : customSections existing generated with
    | nil => exact absurd hcs hne
    | cons a as => simp
  simp [this]

/-- Witness for C1 at the concrete inputs of the repository's own test
("should preserve custom sections not in generated output"). -/
theorem merge_appends_custom_sections_witness :
    mergeInstructionFiles
        "## Code Standards\nGenerated content\n\n## My Custom Rules\nDo not use var.\nAlways use strict mode."
        "## Code Standards\nUpdated generated content" =
      "## Code Standards\nUpdated generated content" ++ mergeSeparator ++
        String.intercalate "\n\n" (customSections
          "## Code Standards\nGenerated content\n\n## My Custom Rules\nDo not use var.\nAlways use strict mode."
          "## Code Standards\nUpdated generated content") :=
  merge_appends_custom_sections _ _
    ⟨"## My Custom Rules", by decide, by decide, by decide⟩

-- ═════════════════════════════════════════════════════════════════════
-- Claim C2
-- ═════════════════════════════════════════════════════════════════════

/-- C2: if every second- or third-level heading line of the existing text
is (after trimming) among the heading lines of the generated text, the
merge result is byte-identical to the generated text, with no separator;
in particular merging a text with itself returns it unchanged. -/
theorem merge_noop_when_headers_covered (existing generated : String)
    (h : ∀ l ∈ splitLines existing, isCustomHeader l = true →
          trimStr l ∈ generatedHeaders generated) :
    mergeInstructionFiles existing generated = generated ∧
      mergeInstructionFiles generated generated = generated := by
  constructor
  · have hdead : (splitLines existing).foldl
        (mergeStep (generatedHeaders generated)) ⟨[], false, []⟩ =
          ⟨[], false, []⟩ :=
      foldl_mergeStep_dead _ _ []
        (fun l hl hh => contains_true_of_mem _ _ (h l hl hh))
    unfold mergeInstructionFiles customSections
    rw [hdead]
    simp [mergeFinal]
  · have hself : ∀ l ∈ splitLines generated, isCustomHeader l = true →
        trimStr l ∈ generatedHeaders generated := by
      intro l hl hh
      unfold generatedHeaders
      exact List.mem_map_of_mem trimStr (List.mem_filter.mpr ⟨hl, hh⟩)
    have hdead : (splitLines generated).foldl
        (mergeStep (generatedHeaders generated)) ⟨[], false, []⟩ =
          ⟨[], false, []⟩ :=
      foldl_mergeStep_dead _ _ []
        (fun l hl hh => contains_true_of_mem _ _ (hself l hl hh))
    unfold mergeInstructionFiles customSections
    rw [hdead]
    simp [mergeFinal]

/-- Witness for C2 at the concrete inputs of the repository's own test
("should not duplicate sections that exist in both"). -/
theorem merge_noop_when_headers_covered_witness :
    mergeInstructionFiles "## Code Standards\nOld\n\n## Testing\nOld tests"
        "## Code Standards\nNew\n\n## Testing\nNew tests" =
      "## Code Standards\nNew\n\n## Testing\nNew tests" ∧
    mergeInstructionFiles "## Code Standards\nNew\n\n## Testing\nNew tests"
        "## Code Standards\nNew\n\n## Testing\nNew tests" =
      "## Code Standards\nNew\n\n## Testing\nNew tests" :=
  merge_noop_when_headers_covered _ _ (by decide)

-- ═════════════════════════════════════════════════════════════════════
-- Claim C3: scan versus span decomposition
-- ═════════════════════════════════════════════════════════════════════

lemma not_mem_of_contains_false (l : List String) (a : String)
    (h : l.contains a = false) : a ∉ l := by
  intro hm
  rw [contains_true_of_mem _ _ hm] at h
  exact Bool.noConfusion h

lemma mergeStep_absent_dead (headers : List String) (secs : List String)
    (line : String) (h1 : isCustomHeader line = true)
    (h2 : headers.contains (trimStr line) = false) :
    mergeStep headers ⟨secs, false, []⟩ line = ⟨secs, true, [line]⟩ := by
  unfold mergeStep
  simp [h1, h2]
  exact not_mem_of_contains_false _ _ h2

lemma foldl_mergeStep_custom (headers : List String) (t : List String)
    (h : ∀ l ∈ t, isCustomHeader l = false) :
    ∀ (secs cur : List String),
      t.foldl (mergeStep headers) ⟨secs, true, cur⟩ = ⟨secs, true, cur ++ t⟩ := by
  induction t with
  | nil => intro secs cur; simp
  | cons x xs ih =>
    intro secs cur
    have hx := h x (List.mem_cons_self x xs)
    have hstep : mergeStep headers ⟨secs, true, cur⟩ x =
        ⟨secs, true, cur ++ [x]⟩ := by
      unfold mergeStep
      simp [hx]
    simp only [List.foldl_cons, hstep]
    rw [ih (fun l hl => h l (List.mem_cons_of_mem x hl))]
    simp

lemma mergeStep_realign (headers : List String) (secs cur : List String)
    (line : String) (h1 : isCustomHeader line = true) (h2 : cur ≠ []) :
    mergeStep headers ⟨secs, true, cur⟩ line =
      mergeStep headers ⟨secs ++ [String.intercalate "\n" cur], false, []⟩ line := by
  unfold mergeStep
  simp [h1, h2]

lemma dropWhile_head_header (ls : List String) (d0 : String) (d : List String)
    (h : ls.dropWhile (fun x => !isCustomHeader x) = d0:: d) :
    isCustomHeader d0 = true := by
  induction ls with
  | nil => simp [List.dropWhile] at h
  | cons x xs ih =>
    by_cases hx : isCustomHeader x = true
    · rw [List.dropWhile_cons] at h
      simp only [hx] at h
      simp only [Bool.not_true, Bool.false_eq_true, if_false] at h
      rcases List.cons.injEq .. ▸ h with ⟨rfl, _⟩
      exact hx
    · simp only [Bool.not_eq_true] at hx
      rw [List.dropWhile_cons] at h
      simp only [hx, Bool.not_false, if_true] at h
      exact ih h

lemma takeWhile_nonheader (ls : List String) :
    ∀ x ∈ ls.takeWhile (fun x => !isCustomHeader x), isCustomHeader x = false := by
  intro x hx
  have := List.mem_takeWhile_imp hx
  simpa using this

lemma spans_cons_header (l : String) (ls : List String)
    (h : isCustomHeader l = true) :
    spans (l :: ls) =
      (l :: ls.takeWhile (fun x => !isCustomHeader x)) ::
        spans (ls.dropWhile (fun x => !isCustomHeader x)) := by
  rw [spans]
  simp [h]

lemma spans_cons_nonheader (l : String) (ls : List String)
    (h : isCustomHeader l = false) :
    spans (l :: ls) = spans ls := by
  rw [spans]
  simp [h]

lemma spans_nil : spans [] = [] := by rw [spans]

lemma scan_eq_spans (headers : List String) :
    ∀ (n : Nat) (lines : List String), lines.length ≤ n →
      ∀ (secs : List String),
        mergeFinal (lines.foldl (mergeStep headers) ⟨secs, false, []⟩) =
          secs ++ (customSpans headers lines).map (String.intercalate "\n") := by
  intro n
  induction n with
  | zero =>
    intro lines hlen secs
    have : lines = [] := List.length_eq_zero.mp (Nat.le_zero.mp hlen)
    subst this
    simp [customSpans, spans_nil, mergeFinal]
  | succ n ih =>
    intro lines hlen secs
    cases lines with
    | nil => simp [customSpans, spans_nil, mergeFinal]
    | cons l ls =>
      by_cases hl : isCustomHeader l = true
      · -- header line: split ls into its non-header run and the remainder
        have hsplit : ls.takeWhile (fun x => !isCustomHeader x) ++
            ls.dropWhile (fun x => !isCustomHeader x) = ls :=
          List.takeWhile_append_dropWhile _ _
        have hdlen : (ls.dropWhile (fun x => !isCustomHeader x)).length ≤ n := by
          have h1 : (ls.dropWhile (fun x => !isCustomHeader x)).length ≤
              ls.length := dropWhile_length_le _ _
          have h2 : ls.length ≤ n := by
            simp only [List.length_cons] at hlen; omega
          omega
        by_cases hc : headers.contains (trimStr l) = true
        · -- matched heading: the scan stays dead through l and the run
          have hmem : trimStr l ∈ headers := List.elem_iff.mp hc
          have hstep := mergeStep_matched_dead headers secs l (fun _ => hc)
          have hdeadt : (ls.takeWhile (fun x => !isCustomHeader x)).foldl
              (mergeStep headers) ⟨secs, false, []⟩ = ⟨secs, false, []⟩ :=
            foldl_mergeStep_dead headers _ secs
              (fun x hx hh => absurd hh (by simp [takeWhile_nonheader ls x hx]))
          have hfold : (l :: ls).foldl (mergeStep headers) ⟨secs, false, []⟩ =
              (ls.dropWhile (fun x => !isCustomHeader x)).foldl
                (mergeStep headers) ⟨secs, false, []⟩ := by
            simp only [List.foldl_cons, hstep]
            rw [← hsplit, List.foldl_append, hdeadt]
            rw [hsplit]
          rw [hfold, ih _ hdlen secs]
          have hspans : customSpans headers (l :: ls) =
              customSpans headers (ls.dropWhile (fun x => !isCustomHeader x)) := by
            unfold customSpans
            rw [spans_cons_header l ls hl]
            simp [List.filter_cons, hmem]
          rw [hspans]
        · -- absent heading: l opens a custom section that captures the run
          have hnmem : trimStr l ∉ headers := by
            simp only [Bool.not_eq_true] at hc
            exact not_mem_of_contains_false _ _ hc
          simp only [Bool.not_eq_true] at hc
          have hstep := mergeStep_absent_dead headers secs l hl hc
          have hcustomt : (ls.takeWhile (fun x => !isCustomHeader x)).foldl
              (mergeStep headers) ⟨secs, true, [l]⟩ =
              ⟨secs, true, [l] ++ ls.takeWhile (fun x => !isCustomHeader x)⟩ :=
            foldl_mergeStep_custom headers _ (takeWhile_nonheader ls) secs [l]
          have hfold : (l :: ls).foldl (mergeStep headers) ⟨secs, false, []⟩ =
              (ls.dropWhile (fun x => !isCustomHeader x)).foldl
                (mergeStep headers)
                ⟨secs, true, l :: ls.takeWhile (fun x => !isCustomHeader x)⟩ := by
            simp only [List.foldl_cons, hstep]
            rw [← hsplit, List.foldl_append, hcustomt]
            rw [hsplit]
            simp
          rw [hfold]
          cases hdd : ls.dropWhile (fun x => !isCustomHeader x) with
          | nil =>
            simp only [List.foldl_nil]
            have hspans : customSpans headers (l :: ls) =
                [l :: ls.takeWhile (fun x => !isCustomHeader x)] := by
              unfold customSpans
              rw [spans_cons_header l ls hl, hdd, spans_nil]
              simp [List.filter_cons, hnmem]
            rw [hspans]
            unfold mergeFinal
            simp
          | cons d0 dtail =>
            have hd0 : isCustomHeader d0 = true :=
              dropWhile_head_header ls d0 dtail hdd
            have hrealign : (d0 :: dtail).foldl (mergeStep headers)
                ⟨secs, true, l :: ls.takeWhile (fun x => !isCustomHeader x)⟩ =
                (d0 :: dtail).foldl (mergeStep headers)
                  ⟨secs ++ [String.intercalate "\n"
                      (l :: ls.takeWhile (fun x => !isCustomHeader x))],
                    false, []⟩ := by
              simp only [List.foldl_cons]
              rw [mergeStep_realign headers secs _ d0 hd0 (by simp)]
            rw [hrealign]
            have hdlen2 : (d0 :: dtail).length ≤ n := hdd ▸ hdlen
            rw [ih _ hdlen2 _]
            have hspans : customSpans headers (l :: ls) =
                (l :: ls.takeWhile (fun x => !isCustomHeader x)) ::
                  customSpans headers (d0 :: dtail) := by
              unfold customSpans
              rw [spans_cons_header l ls hl, hdd]
              simp [List.filter_cons, hnmem]
            rw [hspans]
            simp
      · -- non-header line before any section: skipped by scan and spans
        simp only [Bool.not_eq_true] at hl
        have hstep := mergeStep_matched_dead headers secs l
          (fun hh => absurd hh (by simp [hl]))
        have hlslen : ls.length ≤ n := by
          simp only [List.length_cons] at hlen; omega
        simp only [List.foldl_cons, hstep]
        rw [ih ls hlslen secs]
        have hspans : customSpans headers (l :: ls) = customSpans headers ls := by
          unfold customSpans
          rw [spans_cons_nonheader l ls hl]
        rw [hspans]

/-- Counterexample for C3: with an existing text whose custom section
`## Custom` contains the sub-heading `### Sub` that also appears in the
generated text, the merge drops the sub-heading and its body instead of
preserving them with the custom section. -/
theorem merge_subheading_not_preserved :
    mergeInstructionFiles "## Custom\nbody\n### Sub\nsub body" "# T\n\n### Sub\nx" =
      "# T\n\n### Sub\nx" ++ mergeSeparator ++ "## Custom\nbody" ∧
    customSections "## Custom\nbody\n### Sub\nsub body" "# T\n\n### Sub\nx" =
      ["## Custom\nbody"] := by
  constructor
  · decide
  · decide

/-- C3 (amended): a section span begins at any second- or third-level
heading line and runs until the next second- or third-level heading line
(of either level) or end of text; the captured custom sections are
exactly the spans whose trimmed heading line is absent from the generated
heading set, in order — so a `### ` line inside a `## ` custom section
starts a new span and is dropped when its trimmed text appears among the
generated heading lines; trimmed heading-line string equality is the only
matching criterion. -/
theorem merge_custom_sections_are_spans (existing generated : String) :
    customSections existing generated =
      (customSpans (generatedHeaders generated) (splitLines existing)).map
        (String.intercalate "\n") := by
  unfold customSections
  have := scan_eq_spans (generatedHeaders generated) (splitLines existing).length
    (splitLines existing) (Nat.le_refl _) []
  simpa using this

-- ═════════════════════════════════════════════════════════════════════
-- Lemmas: character-list scanning primitives
-- ═════════════════════════════════════════════════════════════════════

lemma isPrefixOf_append_self (l r : List Char) : l.isPrefixOf (l ++ r) = true := by
  induction l with
  | nil => simp [List.isPrefixOf]
  | cons c cs ih => simp [List.isPrefixOf, ih]

lemma isPrefixOf_false_of_head_ne (p0 : Char) (pr : List Char) (c : Char)
    (xs : List Char) (hc : c ≠ p0) :
    (p0 :: pr).isPrefixOf (c :: xs) = false := by
  simp [List.isPrefixOf]
  intro h
  exact absurd h.symm hc

lemma mem_of_isPrefixOf (p l : List Char) (h : p.isPrefixOf l = true) :
    ∀ c ∈ p, c ∈ l := by
  induction p generalizing l with
  | nil => intro c hc; exact absurd hc (List.not_mem_nil c)
  | cons p0 pr ih =>
    cases l with
    | nil => simp [List.isPrefixOf] at h
    | cons l0 ls =>
      simp only [List.isPrefixOf, Bool.and_eq_true, beq_iff_eq] at h
      rcases h with ⟨rfl, h2⟩
      intro c hc
      rcases List.mem_cons.mp hc with rfl | hmem
      · exact List.mem_cons_self _ _
      · exact List.mem_cons_of_mem _ (ih ls h2 c hmem)

lemma splitSeq_self (pat b : List Char) (hp : pat ≠ []) :
    splitSeq pat (pat ++ b) = some ([], b) := by
  cases pat with
  | nil => exact absurd rfl hp
  | cons p0 pr =>
    show splitSeq (p0 :: pr) (p0 :: (pr ++ b)) = some ([], b)
    unfold splitSeq
    rw [show (p0 :: (pr ++ b)) = (p0 :: pr) ++ b by simp]
    rw [isPrefixOf_append_self]
    simp

lemma splitSeq_cons_notpre (pat : List Char) (c : Char) (xs pre tail : List Char)
    (h : pat.isPrefixOf (c :: xs) = false)
    (hres : splitSeq pat xs = some (pre, tail)) :
    splitSeq pat (c :: xs) = some (c :: pre, tail) := by
  unfold splitSeq
  rw [h]
  simp [hres]

lemma splitSeq_skip (p0 : Char) (pr : List Char) :
    ∀ (a b pre tail : List Char), (∀ c ∈ a, c ≠ p0) →
      splitSeq (p0 :: pr) b = some (pre, tail) →
      splitSeq (p0 :: pr) (a ++ b) = some (a ++ pre, tail) := by
  intro a
  induction a with
  | nil => intro b pre tail _ hres; simpa using hres
  | cons c cs ih =>
    intro b pre tail ha hres
    have hc : c ≠ p0 := ha c (List.mem_cons_self c cs)
    have hrec := ih b pre tail (fun x hx => ha x (List.mem_cons_of_mem c hx)) hres
    have := splitSeq_cons_notpre (p0 :: pr) c (cs ++ b) (cs ++ pre) tail
      (isPrefixOf_false_of_head_ne p0 pr c (cs ++ b) hc) hrec
    simpa using this

lemma splitSeq_junction (p0 : Char) (pr : List Char) (a b : List Char)
    (ha : ∀ c ∈ a, c ≠ p0) :
    splitSeq (p0 :: pr) (a ++ (p0 :: pr) ++ b) = some (a, b) := by
  have hbase : splitSeq (p0 :: pr) ((p0 :: pr) ++ b) = some ([], b) :=
    splitSeq_self _ _ (by simp)
  have := splitSeq_skip p0 pr a ((p0 :: pr) ++ b) [] b ha hbase
  simpa [List.append_assoc] using this

lemma splitSeq_none_missing (p0 : Char) (pr : List Char) :
    ∀ (a : List Char), (∀ c ∈ a, c ≠ p0) →
      splitSeq (p0 :: pr) a = none := by
  intro a
  induction a with
  | nil => intro _; rfl
  | cons c cs ih =>
    intro ha
    have hc : c ≠ p0 := ha c (List.mem_cons_self c cs)
    unfold splitSeq
    rw [isPrefixOf_false_of_head_ne p0 pr c cs hc]
    simp [ih (fun x hx => ha x (List.mem_cons_of_mem c hx))]

-- ═════════════════════════════════════════════════════════════════════
-- Lemmas: trimming and identifier characters
-- ═════════════════════════════════════════════════════════════════════

lemma identChar_not_ws (c : Char) (h : identChar c = true) :
    c.isWhitespace = false := by
  by_contra hw
  simp only [Bool.not_eq_false] at hw
  have : c = ' ' ∨ c = '\t' ∨ c = '\r' ∨ c = '\n' := by
    revert hw
    unfold Char.isWhitespace
    simp
    tauto
  rcases this with rfl | rfl | rfl | rfl <;> exact absurd h (by decide)

lemma identChar_ne (c : Char) (h : identChar c = true) :
    c ≠ '{' ∧ c ≠ '}' ∧ c ≠ '|' ∧ c ≠ '#' ∧ c ≠ '/' := by
  have h1 : c ≠ '{' := fun hc => by rw [hc] at h; exact absurd h (by decide)
  have h2 : c ≠ '}' := fun hc => by rw [hc] at h; exact absurd h (by decide)
  have h3 : c ≠ '|' := fun hc => by rw [hc] at h; exact absurd h (by decide)
  have h4 : c ≠ '#' := fun hc => by rw [hc] at h; exact absurd h (by decide)
  have h5 : c ≠ '/' := fun hc => by rw [hc] at h; exact absurd h (by decide)
  exact ⟨h1, h2, h3, h4, h5⟩

lemma trimChars_nil : trimChars [] = [] := rfl

lemma trimChars_cons_space (xs : List Char) :
    trimChars (' ' :: xs) = trimChars xs := by
  unfold trimChars
  rw [List.dropWhile_cons]
  simp

lemma trimChars_no_edge_ws (xs : List Char)
    (h1 : ∀ y, xs.head? = some y → y.isWhitespace = false)
    (h2 : ∀ y, xs.getLast? = some y → y.isWhitespace = false) :
    trimChars xs = xs := by
  unfold trimChars
  have e1 : xs.dropWhile Char.isWhitespace = xs := by
    cases xs with
    | nil => rfl
    | cons y ys =>
      rw [List.dropWhile_cons]
      simp [h1 y rfl]
  rw [e1]
  have e2 : xs.reverse.dropWhile Char.isWhitespace = xs.reverse := by
    cases hrev : xs.reverse with
    | nil => rfl
    | cons y ys =>
      rw [List.dropWhile_cons]
      have hy : xs.getLast? = some y := by
        rw [← List.head?_reverse, hrev]
        rfl
      simp [h2 y hy]
  rw [e2, List.reverse_reverse]

lemma ident_nows (xs : List Char) (h : ∀ c ∈ xs, identChar c = true) :
    ∀ c ∈ xs, c.isWhitespace = false :=
  fun c hc => identChar_not_ws c (h c hc)

lemma trimChars_nows (xs : List Char) (h : ∀ c ∈ xs, c.isWhitespace = false) :
    trimChars xs = xs :=
  trimChars_no_edge_ws xs
    (fun y hy => h y (List.mem_of_mem_head? hy))
    (fun y hy => h y (List.mem_of_mem_getLast? hy))

lemma trimChars_nows_space_right (xs : List Char)
    (h : ∀ c ∈ xs, c.isWhitespace = false) :
    trimChars (xs ++ [' ']) = xs := by
  cases xs with
  | nil => decide
  | cons y ys =>
    unfold trimChars
    have e1 : ((y :: ys) ++ [' ']).dropWhile Char.isWhitespace =
        (y :: ys) ++ [' '] := by
      rw [List.cons_append, List.dropWhile_cons]
      simp [h y (List.mem_cons_self y ys)]
    rw [e1, List.reverse_append]
    simp only [List.reverse_cons, List.reverse_nil, List.nil_append,
      List.singleton_append, List.dropWhile_cons]
    have hsp : (' ' : Char).isWhitespace = true := by decide
    rw [hsp]
    simp only [if_true]
    have e2 : (y :: ys).reverse.dropWhile Char.isWhitespace =
        (y :: ys).reverse := by
      cases hrev : (y :: ys).reverse with
      | nil => rfl
      | cons z zs =>
        rw [List.dropWhile_cons]
        have hz : z ∈ y :: ys := by
          rw [← List.mem_reverse, hrev]
          exact List.mem_cons_self z zs
        simp [h z hz]
    rw [← List.reverse_cons, e2, List.reverse_reverse]

-- ═════════════════════════════════════════════════════════════════════
-- Lemmas: substitution pass
-- ═════════════════════════════════════════════════════════════════════

lemma substFuel_nil (ctx : RenderCtx) : ∀ n, substFuel ctx n [] = [] := by
  intro n
  cases n <;> rfl

lemma substFuel_irrel (ctx : RenderCtx) :
    ∀ (n m : Nat) (cs : List Char), cs.length ≤ n → cs.length ≤ m →
      substFuel ctx n cs = substFuel ctx m cs := by
  intro n
  induction n with
  | zero =>
    intro m cs hn _
    have : cs = [] := List.length_eq_zero.mp (Nat.le_zero.mp hn)
    subst this
    rw [substFuel_nil, substFuel_nil]
  | succ n ih =>
    intro m cs hn hm
    cases cs with
    | nil => rw [substFuel_nil, substFuel_nil]
    | cons c rest =>
      cases m with
      | zero => simp at hm
      | succ m2 =>
        have hrn : rest.length ≤ n := by
          simp only [List.length_cons] at hn; omega
        have hrm : rest.length ≤ m2 := by
          simp only [List.length_cons] at hm; omega
        simp only [substFuel]
        by_cases hpre : openBraces.isPrefixOf (c :: rest) = true
        · simp only [hpre, if_true]
          cases hsp : splitSeq closeBraces (rest.drop 1) with
          | none => dsimp only; rw [ih m2 rest hrn hrm]
          | some pr =>
            rcases pr with ⟨inner, tail⟩
            have hlt := splitSeq_length_lt closeBraces (by simp [closeBraces])
              _ _ _ hsp
            have hd : (rest.drop 1).length ≤ rest.length := by
              simp only [List.length_drop]; omega
            dsimp only
            rw [ih m2 tail (by omega) (by omega)]
        · simp only [hpre, Bool.false_eq_true, if_false]
          rw [ih m2 rest hrn hrm]

lemma substAux_nil (ctx : RenderCtx) : substAux ctx [] = [] := rfl

lemma substAux_not_open (ctx : RenderCtx) (c : Char) (rest : List Char)
    (h : openBraces.isPrefixOf (c :: rest) = false) :
    substAux ctx (c :: rest) = c :: substAux ctx rest := by
  unfold substAux
  simp only [List.length_cons, substFuel, h, Bool.false_eq_true, if_false]

lemma substAux_open_some (ctx : RenderCtx) (c : Char)
    (rest inner tail : List Char)
    (h : openBraces.isPrefixOf (c :: rest) = true)
    (hsp : splitSeq closeBraces (rest.drop 1) = some (inner, tail)) :
    substAux ctx (c :: rest) = renderPlaceholder ctx inner ++ substAux ctx tail := by
  unfold substAux
  simp only [List.length_cons, substFuel, h, if_true, hsp]
  congr 1
  have hlt := splitSeq_length_lt closeBraces (by simp [closeBraces]) _ _ _ hsp
  have hd : (rest.drop 1).length ≤ rest.length := by
    simp only [List.length_drop]; omega
  exact substFuel_irrel ctx rest.length tail.length tail (by omega) (Nat.le_refl _)

lemma substAux_append_pass (ctx : RenderCtx) :
    ∀ (a b : List Char), (∀ c ∈ a, c ≠ '{') →
      substAux ctx (a ++ b) = a ++ substAux ctx b := by
  intro a
  induction a with
  | nil => intro b _; simp
  | cons c cs ih =>
    intro b ha
    have hc : c ≠ '{' := ha c (List.mem_cons_self c cs)
    have hpre : openBraces.isPrefixOf (c :: (cs ++ b)) = false := by
      have := isPrefixOf_false_of_head_ne '{' ['{'] c (cs ++ b) hc
      simpa [openBraces] using this
    rw [List.cons_append, substAux_not_open ctx c (cs ++ b) hpre,
      ih b (fun x hx => ha x (List.mem_cons_of_mem c hx))]
    rfl

lemma substAux_id_pass (ctx : RenderCtx) (a : List Char)
    (ha : ∀ c ∈ a, c ≠ '{') : substAux ctx a = a := by
  have := substAux_append_pass ctx a [] ha
  simpa [substAux_nil] using this

lemma substAux_placeholder (ctx : RenderCtx) (inner b : List Char)
    (hinner : ∀ c ∈ inner, c ≠ '}') :
    substAux ctx ('{' :: '{' :: (inner ++ '}' :: '}' :: b)) =
      renderPlaceholder ctx inner ++ substAux ctx b := by
  have h : openBraces.isPrefixOf
      ('{' :: ('{' :: (inner ++ '}' :: '}' :: b))) = true := by
    simp [openBraces, List.isPrefixOf]
  have hsp : splitSeq closeBraces
      (('{' :: (inner ++ '}' :: '}' :: b)).drop 1) = some (inner, b) := by
    have := splitSeq_junction '}' ['}'] inner b hinner
    simpa [closeBraces] using this
  exact substAux_open_some ctx '{' ('{' :: (inner ++ '}' :: '}' :: b)) inner b h hsp

-- ═════════════════════════════════════════════════════════════════════
-- Lemmas: conditional pass
-- ═════════════════════════════════════════════════════════════════════

lemma condFuel_nil (ctx : RenderCtx) : ∀ n, condFuel ctx n [] = [] := by
  intro n
  cases n <;> rfl

lemma condFuel_irrel (ctx : RenderCtx) :
    ∀ (n m : Nat) (cs : List Char), cs.length ≤ n → cs.length ≤ m →
      condFuel ctx n cs = condFuel ctx m cs := by
  intro n
  induction n with
  | zero =>
    intro m cs hn _
    have : cs = [] := List.length_eq_zero.mp (Nat.le_zero.mp hn)
    subst this
    rw [condFuel_nil, condFuel_nil]
  | succ n ih =>
    intro m cs hn hm
    cases cs with
    | nil => rw [condFuel_nil, condFuel_nil]
    | cons c rest =>
      cases m with
      | zero => simp at hm
      | succ m2 =>
        have hrn : rest.length ≤ n := by
          simp only [List.length_cons] at hn; omega
        have hrm : rest.length ≤ m2 := by
          simp only [List.length_cons] at hm; omega
        simp only [condFuel]
        by_cases hpre : ifMarker.isPrefixOf (c :: rest) = true
        · simp only [hpre, if_true]
          cases hsp : splitSeq closeBraces (rest.drop 4) with
          | none => dsimp only; rw [ih m2 rest hrn hrm]
          | some pr =>
            rcases pr with ⟨predPart, afterPred⟩
            cases hsp2 : splitSeq endIfMarker afterPred with
            | none => dsimp only; rw [hsp2]; dsimp only; rw [ih m2 rest hrn hrm]
            | some pr2 =>
              rcases pr2 with ⟨content, tail⟩
              have hl1 := splitSeq_length_lt closeBraces (by simp [closeBraces])
                _ _ _ hsp
              have hl2 := splitSeq_length_lt endIfMarker (by simp [endIfMarker])
                _ _ _ hsp2
              have hd : (rest.drop 4).length ≤ rest.length := by
                simp only [List.length_drop]; omega
              dsimp only
              rw [hsp2]
              dsimp only
              rw [ih m2 tail (by omega) (by omega)]
        · simp only [hpre, Bool.false_eq_true, if_false]
          rw [ih m2 rest hrn hrm]

lemma processConds_nil (ctx : RenderCtx) : processConds ctx [] = [] := rfl

lemma processConds_not_if (ctx : RenderCtx) (c : Char) (rest : List Char)
    (h : ifMarker.isPrefixOf (c :: rest) = false) :
    processConds ctx (c :: rest) = c :: processConds ctx rest := by
  unfold processConds
  simp only [List.length_cons, condFuel, h, Bool.false_eq_true, if_false]

lemma processConds_if_some (ctx : RenderCtx) (c : Char)
    (rest predPart afterPred content tail : List Char)
    (h : ifMarker.isPrefixOf (c :: rest) = true)
    (h1 : splitSeq closeBraces (rest.drop 4) = some (predPart, afterPred))
    (h2 : splitSeq endIfMarker afterPred = some (content, tail)) :
    processConds ctx (c :: rest) =
      (if evalPredicate ctx (String.mk (trimChars predPart)) = true then content
       else []) ++ processConds ctx tail := by
  unfold processConds
  simp only [List.length_cons, condFuel, h, if_true, h1, h2]
  congr 1
  have hl1 := splitSeq_length_lt closeBraces (by simp [closeBraces]) _ _ _ h1
  have hl2 := splitSeq_length_lt endIfMarker (by simp [endIfMarker]) _ _ _ h2
  have hd : (rest.drop 4).length ≤ rest.length := by
    simp only [List.length_drop]; omega
  exact condFuel_irrel ctx rest.length tail.length tail (by omega) (Nat.le_refl _)

lemma processConds_append_pass (ctx : RenderCtx) :
    ∀ (a b : List Char), (∀ c ∈ a, c ≠ '{') →
      processConds ctx (a ++ b) = a ++ processConds ctx b := by
  intro a
  induction a with
  | nil => intro b _; simp
  | cons c cs ih =>
    intro b ha
    have hc : c ≠ '{' := ha c (List.mem_cons_self c cs)
    have hpre : ifMarker.isPrefixOf (c :: (cs ++ b)) = false := by
      have := isPrefixOf_false_of_head_ne '{' ['{', '#', 'i', 'f', ' '] c
        (cs ++ b) hc
      simpa [ifMarker] using this
    rw [List.cons_append, processConds_not_if ctx c (cs ++ b) hpre,
      ih b (fun x hx => ha x (List.mem_cons_of_mem c hx))]
    rfl

lemma processConds_id_pass (ctx : RenderCtx) (a : List Char)
    (ha : ∀ c ∈ a, c ≠ '{') : processConds ctx a = a := by
  have := processConds_append_pass ctx a [] ha
  simpa [processConds_nil] using this

lemma processConds_id_no_hash (ctx : RenderCtx) :
    ∀ (a : List Char), (∀ c ∈ a, c ≠ '#') → processConds ctx a = a := by
  intro a
  induction a with
  | nil => intro _; rfl
  | cons c cs ih =>
    intro ha
    have hpre : ifMarker.isPrefixOf (c :: cs) = false := by
      by_contra hp
      simp only [Bool.not_eq_false] at hp
      have hmem := mem_of_isPrefixOf ifMarker (c :: cs) hp '#'
        (by simp [ifMarker])
      rcases List.mem_cons.mp hmem with heq | hmem2
      · exact ha c (List.mem_cons_self c cs) heq.symm
      · exact ha '#' (List.mem_cons_of_mem c hmem2) rfl
    rw [processConds_not_if ctx c cs hpre,
      ih (fun x hx => ha x (List.mem_cons_of_mem c hx))]

-- ═════════════════════════════════════════════════════════════════════
-- Lemmas: placeholder rendering
-- ═════════════════════════════════════════════════════════════════════

lemma mk_data (s : String) : String.mk s.data = s := rfl

lemma string_ext_data (s t : String) (h : s.data = t.data) : s = t := by
  have h2 := congrArg String.mk h
  rwa [mk_data, mk_data] at h2

lemma ident_chars {name : String} (h : name.data.all identChar = true) :
    ∀ c ∈ name.data, identChar c = true :=
  fun c hc => List.all_eq_true.mp h c hc

lemma renderPlaceholder_ident_resolved (ctx : RenderCtx) (name v : String)
    (hname : name.data.all identChar = true)
    (hres : resolveVar ctx name = some v) :
    renderPlaceholder ctx name.data = v.data := by
  unfold renderPlaceholder
  have hsplit : splitSeq ['|'] name.data = none :=
    splitSeq_none_missing '|' [] name.data
      (fun c hc => (identChar_ne c (ident_chars hname c hc)).2.2.1)
  rw [hsplit]
  dsimp only
  rw [trimChars_nows name.data (ident_nows _ (ident_chars hname)), mk_data, hres]

lemma renderPlaceholder_ident_unresolved (ctx : RenderCtx) (name : String)
    (hname : name.data.all identChar = true)
    (hres : resolveVar ctx name = none) :
    renderPlaceholder ctx name.data = '{' :: '{' :: (name.data ++ ['}', '}']) := by
  unfold renderPlaceholder
  have hsplit : splitSeq ['|'] name.data = none :=
    splitSeq_none_missing '|' [] name.data
      (fun c hc => (identChar_ne c (ident_chars hname c hc)).2.2.1)
  rw [hsplit]
  dsimp only
  rw [trimChars_nows name.data (ident_nows _ (ident_chars hname)), mk_data, hres]

lemma renderPlaceholder_ws_resolved (ctx : RenderCtx) (name v : String)
    (hname : name.data.all identChar = true)
    (hres : resolveVar ctx name = some v) :
    renderPlaceholder ctx (' ' :: (name.data ++ [' '])) = v.data := by
  unfold renderPlaceholder
  have hsplit : splitSeq ['|'] (' ' :: (name.data ++ [' '])) = none := by
    apply splitSeq_none_missing '|' []
    intro c hc
    rcases List.mem_cons.mp hc with rfl | hmem
    · decide
    · rcases List.mem_append.mp hmem with hm | hm
      · exact (identChar_ne c (ident_chars hname c hm)).2.2.1
      · rcases List.mem_singleton.mp hm with rfl
        decide
  rw [hsplit]
  dsimp only
  rw [trimChars_cons_space,
    trimChars_nows_space_right name.data (ident_nows _ (ident_chars hname)),
    mk_data, hres]

lemma default_inner_split (name d : String)
    (hname : name.data.all identChar = true) :
    splitSeq ['|']
        (name.data ++ ([' ', '|', ' '] ++ (defaultMarker ++ (' ' :: d.data)))) =
      some (name.data ++ [' '], ' ' :: (defaultMarker ++ (' ' :: d.data))) := by
  have ha : ∀ c ∈ name.data ++ [' '], c ≠ '|' := by
    intro c hc
    rcases List.mem_append.mp hc with hm | hm
    · exact (identChar_ne c (ident_chars hname c hm)).2.2.1
    · rcases List.mem_singleton.mp hm with rfl
      decide
  have := splitSeq_junction '|' [] (name.data ++ [' '])
    (' ' :: (defaultMarker ++ (' ' :: d.data))) ha
  rw [← this]
  congr 1
  simp

lemma defaultMarker_nows : ∀ c ∈ defaultMarker, c.isWhitespace = false := by
  decide

lemma renderPlaceholder_default_resolved (ctx : RenderCtx) (name d v : String)
    (hname : name.data.all identChar = true)
    (hres : resolveVar ctx name = some v) :
    renderPlaceholder ctx
        (name.data ++ ([' ', '|', ' '] ++ (defaultMarker ++ (' ' :: d.data)))) =
      v.data := by
  unfold renderPlaceholder
  rw [default_inner_split name d hname]
  dsimp only
  rw [trimChars_nows_space_right name.data (ident_nows _ (ident_chars hname)),
    mk_data, hres]

lemma renderPlaceholder_default_unresolved (ctx : RenderCtx) (name d : String)
    (hname : name.data.all identChar = true)
    (hd : d.data.all identChar = true)
    (hres : resolveVar ctx name = none) :
    renderPlaceholder ctx
        (name.data ++ ([' ', '|', ' '] ++ (defaultMarker ++ (' ' :: d.data)))) =
      d.data := by
  unfold renderPlaceholder
  rw [default_inner_split name d hname]
  dsimp only
  rw [trimChars_nows_space_right name.data (ident_nows _ (ident_chars hname)),
    mk_data, hres]
  dsimp only
  rw [trimChars_cons_space]
  cases hdc : d.data with
  | nil =>
    have e1 : trimChars (defaultMarker ++ (' ' :: ([] : List Char))) =
        defaultMarker := trimChars_nows_space_right defaultMarker defaultMarker_nows
    rw [e1]
    have e2 : defaultMarker.isPrefixOf defaultMarker = true := by decide
    rw [e2]
    simp only [if_true]
    decide
  | cons y ys =>
    have e1 : trimChars (defaultMarker ++ (' ' :: y :: ys)) =
        defaultMarker ++ (' ' :: y :: ys) := by
      apply trimChars_no_edge_ws
      · intro z hz
        have hzz : 'd' = z := by
          simpa [defaultMarker] using hz
        rw [← hzz]
        decide
      · intro z hz
        rw [List.getLast?_append_cons] at hz
        have hz2 : (' ' :: y :: ys).getLast? = ([' '] ++ y :: ys).getLast? := rfl
        rw [hz2, List.getLast?_append_cons] at hz
        have hzmem : z ∈ y :: ys := List.mem_of_mem_getLast? hz
        have : z ∈ d.data := by rw [hdc]; exact hzmem
        exact identChar_not_ws z (ident_chars hd z this)
    rw [e1]
    have e2 : defaultMarker.isPrefixOf (defaultMarker ++ (' ' :: y :: ys)) =
        true := isPrefixOf_append_self _ _
    rw [e2]
    simp only [if_true]
    have e3 : (defaultMarker ++ (' ' :: y :: ys)).drop defaultMarker.length =
        ' ' :: y :: ys := by
      simp
    rw [e3, trimChars_cons_space]
    have : ∀ c ∈ y :: ys, c.isWhitespace = false := by
      intro c hc
      have : c ∈ d.data := by rw [hdc]; exact hc
      exact identChar_not_ws c (ident_chars hd c this)
    rw [trimChars_nows _ this]

lemma data_mk (cs : List Char) : (String.mk cs).data = cs := rfl

lemma data_append (s t : String) : (s ++ t).data = s.data ++ t.data := rfl

lemma plain_chars {s : String} (h : s.data.all plainTextChar = true) :
    ∀ c ∈ s.data, c ≠ '#' ∧ c ≠ '{' := by
  intro c hc
  have hp := List.all_eq_true.mp h c hc
  unfold plainTextChar at hp
  simp only [Bool.and_eq_true, Bool.not_eq_true', beq_eq_false_iff_ne] at hp
  exact hp

/-- The full render pipeline on a document that is plain text around a
single placeholder. -/
lemma renderTemplate_single_ph (ctx : RenderCtx)
    (preL innerL postL : List Char)
    (hpre : ∀ c ∈ preL, c ≠ '#' ∧ c ≠ '{')
    (hpost : ∀ c ∈ postL, c ≠ '#' ∧ c ≠ '{')
    (hinner_hash : ∀ c ∈ innerL, c ≠ '#')
    (hinner_close : ∀ c ∈ innerL, c ≠ '}') :
    substAux ctx (processConds ctx
        (preL ++ ('{' :: '{' :: (innerL ++ ('}' :: '}' :: postL))))) =
      preL ++ (renderPlaceholder ctx innerL ++ postL) := by
  have hnohash : ∀ c ∈ preL ++ ('{' :: '{' :: (innerL ++ ('}' :: '}' :: postL))),
      c ≠ '#' := by
    intro c hc
    rcases List.mem_append.mp hc with hm | hm
    · exact (hpre c hm).1
    · rcases List.mem_cons.mp hm with rfl | hm2
      · decide
      rcases List.mem_cons.mp hm2 with rfl | hm3
      · decide
      rcases List.mem_append.mp hm3 with hm4 | hm5
      · exact hinner_hash c hm4
      rcases List.mem_cons.mp hm5 with rfl | hm6
      · decide
      rcases List.mem_cons.mp hm6 with rfl | hm7
      · decide
      exact (hpost c hm7).1
  rw [processConds_id_no_hash ctx _ hnohash,
    substAux_append_pass ctx preL _ (fun c hc => (hpre c hc).2),
    substAux_placeholder ctx innerL postL hinner_close,
    substAux_id_pass ctx postL (fun c hc => (hpost c hc).2)]

-- ═════════════════════════════════════════════════════════════════════
-- Claim C4
-- ═════════════════════════════════════════════════════════════════════

/-- C4: placeholder substitution.  A placeholder whose name resolves to a
context field — in the native field-name casing or the word-separated
alternate casing, ignoring whitespace inside the delimiters — is replaced
by that value verbatim (also when a default is present); an unresolved
placeholder with a default is replaced by exactly the default; an
unresolved placeholder with no default is left unchanged in the output. -/
theorem renderTemplate_placeholder_rules (ctx : RenderCtx)
    (name d v pre post : String)
    (hname : name.data.all identChar = true)
    (hd : d.data.all identChar = true)
    (hpre : pre.data.all plainTextChar = true)
    (hpost : post.data.all plainTextChar = true) :
    (resolveVar ctx name = some v →
      renderTemplate (pre ++ phOpen ++ name ++ phClose ++ post) ctx =
        pre ++ v ++ post ∧
      renderTemplate (phOpen ++ " " ++ name ++ " " ++ phClose) ctx = v ∧
      renderTemplate (phOpen ++ name ++ " | default: " ++ d ++ phClose) ctx = v) ∧
    (resolveVar ctx name = none →
      renderTemplate (phOpen ++ name ++ " | default: " ++ d ++ phClose) ctx = d ∧
      renderTemplate (pre ++ phOpen ++ name ++ phClose ++ post) ctx =
        pre ++ phOpen ++ name ++ phClose ++ post) := by
  have hprec := plain_chars hpre
  have hpostc := plain_chars hpost
  have hnamec := ident_chars hname
  have hdc := ident_chars hd
  have hname_hash : ∀ c ∈ name.data, c ≠ '#' :=
    fun c hc => (identChar_ne c (hnamec c hc)).2.2.2.1
  have hname_close : ∀ c ∈ name.data, c ≠ '}' :=
    fun c hc => (identChar_ne c (hnamec c hc)).2.1
  have hdata1 : (pre ++ phOpen ++ name ++ phClose ++ post).data =
      pre.data ++ ('{' :: '{' :: (name.data ++ ('}' :: '}' :: post.data))) := by
    simp [data_append, phOpen, phClose, data_mk, openBraces, closeBraces]
  have hdata2 : (phOpen ++ " " ++ name ++ " " ++ phClose).data =
      [] ++ ('{' :: '{' :: ((' ' :: (name.data ++ [' '])) ++ ('}' :: '}' :: ([] : List Char)))) := by
    simp [data_append, phOpen, phClose, data_mk, openBraces, closeBraces]
  have hdata3 : (phOpen ++ name ++ " | default: " ++ d ++ phClose).data =
      [] ++ ('{' :: '{' ::
        ((name.data ++ ([' ', '|', ' '] ++ (defaultMarker ++ (' ' :: d.data)))) ++
          ('}' :: '}' :: ([] : List Char)))) := by
    simp [data_append, phOpen, phClose, data_mk, openBraces, closeBraces,
      defaultMarker]
  have hws_inner_hash : ∀ c ∈ ' ' :: (name.data ++ [' ']), c ≠ '#' := by
    intro c hc
    rcases List.mem_cons.mp hc with rfl | hm
    · decide
    rcases List.mem_append.mp hm with hm2 | hm2
    · exact hname_hash c hm2
    · rcases List.mem_singleton.mp hm2 with rfl; decide
  have hws_inner_close : ∀ c ∈ ' ' :: (name.data ++ [' ']), c ≠ '}' := by
    intro c hc
    rcases List.mem_cons.mp hc with rfl | hm
    · decide
    rcases List.mem_append.mp hm with hm2 | hm2
    · exact hname_close c hm2
    · rcases List.mem_singleton.mp hm2 with rfl; decide
  have hdef_inner_hash :
      ∀ c ∈ name.data ++ ([' ', '|', ' '] ++ (defaultMarker ++ (' ' :: d.data))),
        c ≠ '#' := by
    intro c hc
    rcases List.mem_append.mp hc with hm | hm
    · exact hname_hash c hm
    rcases List.mem_append.mp hm with hm2 | hm2
    · intro rfl2; revert hm2; subst rfl2; decide
    rcases List.mem_append.mp hm2 with hm3 | hm3
    · intro rfl2; revert hm3; subst rfl2; decide
    rcases List.mem_cons.mp hm3 with rfl | hm4
    · decide
    · exact fun e => (identChar_ne c (hdc c hm4)).2.2.2.1 e
  have hdef_inner_close :
      ∀ c ∈ name.data ++ ([' ', '|', ' '] ++ (defaultMarker ++ (' ' :: d.data))),
        c ≠ '}' := by
    intro c hc
    rcases List.mem_append.mp hc with hm | hm
    · exact hname_close c hm
    rcases List.mem_append.mp hm with hm2 | hm2
    · intro rfl2; revert hm2; subst rfl2; decide
    rcases List.mem_append.mp hm2 with hm3 | hm3
    · intro rfl2; revert hm3; subst rfl2; decide
    rcases List.mem_cons.mp hm3 with rfl | hm4
    · decide
    · exact (identChar_ne c (hdc c hm4)).2.1
  have hnil : ∀ c ∈ ([] : List Char), c ≠ '#' ∧ c ≠ '{' := by
    intro c hc; exact absurd hc (List.not_mem_nil c)
  constructor
  · intro hres
    refine ⟨?_, ?_, ?_⟩
    · apply string_ext_data
      show (String.mk (substAux ctx (processConds ctx
          (pre ++ phOpen ++ name ++ phClose ++ post).data))).data = _
      rw [data_mk, hdata1,
        renderTemplate_single_ph ctx pre.data name.data post.data hprec hpostc
          hname_hash hname_close,
        renderPlaceholder_ident_resolved ctx name v hname hres]
      simp [data_append]
    · apply string_ext_data
      show (String.mk (substAux ctx (processConds ctx
          (phOpen ++ " " ++ name ++ " " ++ phClose).data))).data = _
      rw [data_mk, hdata2,
        renderTemplate_single_ph ctx [] (' ' :: (name.data ++ [' '])) [] hnil
          hnil hws_inner_hash hws_inner_close,
        renderPlaceholder_ws_resolved ctx name v hname hres]
      simp
    · apply string_ext_data
      show (String.mk (substAux ctx (processConds ctx
          (phOpen ++ name ++ " | default: " ++ d ++ phClose).data))).data = _
      rw [data_mk, hdata3,
        renderTemplate_single_ph ctx []
          (name.data ++ ([' ', '|', ' '] ++ (defaultMarker ++ (' ' :: d.data))))
          [] hnil hnil hdef_inner_hash hdef_inner_close,
        renderPlaceholder_default_resolved ctx name d v hname hres]
      simp
  · intro hres
    constructor
    · apply string_ext_data
      show (String.mk (substAux ctx (processConds ctx
          (phOpen ++ name ++ " | default: " ++ d ++ phClose).data))).data = _
      rw [data_mk, hdata3,
        renderTemplate_single_ph ctx []
          (name.data ++ ([' ', '|', ' '] ++ (defaultMarker ++ (' ' :: d.data))))
          [] hnil hnil hdef_inner_hash hdef_inner_close,
        renderPlaceholder_default_unresolved ctx name d hname hd hres]
      simp
    · apply string_ext_data
      show (String.mk (substAux ctx (processConds ctx
          (pre ++ phOpen ++ name ++ phClose ++ post).data))).data = _
      rw [data_mk, hdata1,
        renderTemplate_single_ph ctx pre.data name.data post.data hprec hpostc
          hname_hash hname_close,
        renderPlaceholder_ident_unresolved ctx name hname hres]
      simp [data_append, phOpen, phClose, data_mk, openBraces, closeBraces]

/-- Witness for C4 at the inputs of the renderer test suite: a resolved
placeholder, the word-separated alternate casing, the whitespace variant,
a default used and a default overridden, and an unresolved placeholder
left unchanged. -/
theorem renderTemplate_placeholder_rules_witness :
    (renderTemplate ("Hello " ++ phOpen ++ "projectName" ++ phClose ++ "!")
        [("projectName", "TestProject")] = "Hello " ++ "TestProject" ++ "!" ∧
      renderTemplate (phOpen ++ " " ++ "projectName" ++ " " ++ phClose)
        [("projectName", "TestProject")] = "TestProject" ∧
      renderTemplate (phOpen ++ "projectName" ++ " | default: " ++ "300" ++ phClose)
        [("projectName", "TestProject")] = "TestProject") ∧
    renderTemplate (phOpen ++ "max_lines" ++ " | default: " ++ "300" ++ phClose)
        [("projectName", "TestProject")] = "300" ∧
      renderTemplate ("Repo: " ++ phOpen ++ "repo_url" ++ phClose ++ "")
        [("projectName", "TestProject")] =
        "Repo: " ++ phOpen ++ "repo_url" ++ phClose ++ "" := by
  refine ⟨?_, ?_, ?_⟩
  · exact (renderTemplate_placeholder_rules [("projectName", "TestProject")]
      "projectName" "300" "TestProject" "Hello " "!" (by decide) (by decide)
      (by decide) (by decide)).1 (by decide)
  · exact ((renderTemplate_placeholder_rules [("projectName", "TestProject")]
      "max_lines" "300" "unused" "x" "y" (by decide) (by decide)
      (by decide) (by decide)).2 (by decide)).1
  · exact ((renderTemplate_placeholder_rules [("projectName", "TestProject")]
      "repo_url" "300" "unused" "Repo: " "" (by decide) (by decide)
      (by decide) (by decide)).2 (by decide)).2

-- ═════════════════════════════════════════════════════════════════════
-- Lemmas: conditional blocks
-- ═════════════════════════════════════════════════════════════════════

lemma noBrace_chars {s : String} (h : s.data.all (fun c => !(c == '{')) = true) :
    ∀ c ∈ s.data, c ≠ '{' := by
  intro c hc
  have hp := List.all_eq_true.mp h c hc
  simp only [Bool.not_eq_true', beq_eq_false_iff_ne] at hp
  exact hp

lemma processConds_block (ctx : RenderCtx) (p : String) (content b : List Char)
    (hp : p.data.all identChar = true)
    (hcontent : ∀ c ∈ content, c ≠ '{') :
    processConds ctx (ifMarker ++
        (p.data ++ (closeBraces ++ (content ++ (endIfMarker ++ b))))) =
      (if evalPredicate ctx p = true then content else []) ++
        processConds ctx b := by
  have ha : ∀ c ∈ ' ' :: p.data, c ≠ '}' := by
    intro c hc
    rcases List.mem_cons.mp hc with rfl | hm
    · decide
    · exact (identChar_ne c (ident_chars hp c hm)).2.1
  have h1 : splitSeq closeBraces
      (((('{' :: '#' :: 'i' :: 'f' :: ' ' ::
        (p.data ++ (closeBraces ++ (content ++ (endIfMarker ++ b))))) : List Char)).drop 4) =
      some (' ' :: p.data, content ++ (endIfMarker ++ b)) := by
    show splitSeq closeBraces
      (' ' :: (p.data ++ (closeBraces ++ (content ++ (endIfMarker ++ b))))) = _
    have := splitSeq_junction '}' ['}'] (' ' :: p.data)
      (content ++ (endIfMarker ++ b)) ha
    rw [← this]
    congr 1
    simp [closeBraces]
  have h2 : splitSeq endIfMarker (content ++ (endIfMarker ++ b)) =
      some (content, b) := by
    have : endIfMarker = '{' :: ['{', '/', 'i', 'f', '}', '}'] := rfl
    rw [this]
    have hj := splitSeq_junction '{' ['{', '/', 'i', 'f', '}', '}'] content b
      hcontent
    rw [← hj]
    congr 1
    simp
  have hstep := processConds_if_some ctx '{'
    ('{' :: '#' :: 'i' :: 'f' :: ' ' ::
      (p.data ++ (closeBraces ++ (content ++ (endIfMarker ++ b)))))
    (' ' :: p.data) (content ++ (endIfMarker ++ b)) content b
    (by
      have := isPrefixOf_append_self ifMarker
        (p.data ++ (closeBraces ++ (content ++ (endIfMarker ++ b))))
      simpa [ifMarker] using this)
    h1 h2
  have htrim : trimChars (' ' :: p.data) = p.data := by
    rw [trimChars_cons_space, trimChars_nows _ (ident_nows _ (ident_chars hp))]
  rw [htrim, mk_data] at hstep
  exact hstep

lemma splitSeq_endIf_after_ph (name : String) (b : List Char)
    (hname : name.data.all identChar = true) :
    splitSeq endIfMarker
        (('{' :: '{' :: (name.data ++ ['}', '}'])) ++ (endIfMarker ++ b)) =
      some ('{' :: '{' :: (name.data ++ ['}', '}']), b) := by
  have s0 : splitSeq endIfMarker (endIfMarker ++ b) = some ([], b) :=
    splitSeq_self _ _ (by simp [endIfMarker])
  have fclose : ∀ xs, endIfMarker.isPrefixOf ('}' :: xs) = false := by
    intro xs
    exact isPrefixOf_false_of_head_ne '{' ['{', '/', 'i', 'f', '}', '}'] '}' xs
      (by decide)
  have s1 : splitSeq endIfMarker ('}' :: (endIfMarker ++ b)) =
      some (['}'], b) :=
    splitSeq_cons_notpre _ _ _ _ _ (fclose _) s0
  have s2 : splitSeq endIfMarker ('}' :: '}' :: (endIfMarker ++ b)) =
      some (['}', '}'], b) :=
    splitSeq_cons_notpre _ _ _ _ _ (fclose _) s1
  have s3 : splitSeq endIfMarker
      (name.data ++ ('}' :: '}' :: (endIfMarker ++ b))) =
      some (name.data ++ ['}', '}'], b) := by
    have := splitSeq_skip '{' ['{', '/', 'i', 'f', '}', '}'] name.data
      ('}' :: '}' :: (endIfMarker ++ b)) ['}', '}'] b
      (fun c hc => (identChar_ne c (ident_chars hname c hc)).1) s2
    exact this
  have f4 : endIfMarker.isPrefixOf
      ('{' :: (name.data ++ ('}' :: '}' :: (endIfMarker ++ b)))) = false := by
    cases hn : name.data with
    | nil =>
      simp [endIfMarker, List.isPrefixOf]
    | cons n0 ns =>
      have hn0 : identChar n0 = true := by
        have hall := ident_chars hname
        rw [hn] at hall
        exact hall n0 (List.mem_cons_self n0 ns)
      have hne : ('{' == n0) = false := by
        rw [beq_eq_false_iff_ne]
        exact fun e => (identChar_ne n0 hn0).1 e.symm
      simp [endIfMarker, List.isPrefixOf, hne]
  have s4 : splitSeq endIfMarker
      ('{' :: (name.data ++ ('}' :: '}' :: (endIfMarker ++ b)))) =
      some ('{' :: (name.data ++ ['}', '}']), b) :=
    splitSeq_cons_notpre _ _ _ _ _ f4 s3
  have f5 : endIfMarker.isPrefixOf
      ('{' :: '{' :: (name.data ++ ('}' :: '}' :: (endIfMarker ++ b)))) =
        false := by
    cases hn : name.data with
    | nil =>
      simp [endIfMarker, List.isPrefixOf]
    | cons n0 ns =>
      have hn0 : identChar n0 = true := by
        have hall := ident_chars hname
        rw [hn] at hall
        exact hall n0 (List.mem_cons_self n0 ns)
      have hne : ('/' == n0) = false := by
        rw [beq_eq_false_iff_ne]
        exact fun e => (identChar_ne n0 hn0).2.2.2.2 e.symm
      simp [endIfMarker, List.isPrefixOf, hne]
  have s5 : splitSeq endIfMarker
      ('{' :: '{' :: (name.data ++ ('}' :: '}' :: (endIfMarker ++ b)))) =
      some ('{' :: '{' :: (name.data ++ ['}', '}']), b) :=
    splitSeq_cons_notpre _ _ _ _ _ f5 s4
  have hshape : ('{' :: '{' :: (name.data ++ ['}', '}'])) ++ (endIfMarker ++ b) =
      '{' :: '{' :: (name.data ++ ('}' :: '}' :: (endIfMarker ++ b))) := by
    simp
  rw [hshape]
  exact s5

lemma processConds_block_ph (ctx : RenderCtx) (p name : String) (b : List Char)
    (hp : p.data.all identChar = true)
    (hname : name.data.all identChar = true) :
    processConds ctx (ifMarker ++ (p.data ++ (closeBraces ++
        (('{' :: '{' :: (name.data ++ ['}', '}'])) ++ (endIfMarker ++ b))))) =
      (if evalPredicate ctx p = true then
        '{' :: '{' :: (name.data ++ ['}', '}'])
       else []) ++ processConds ctx b := by
  have ha : ∀ c ∈ ' ' :: p.data, c ≠ '}' := by
    intro c hc
    rcases List.mem_cons.mp hc with rfl | hm
    · decide
    · exact (identChar_ne c (ident_chars hp c hm)).2.1
  have h1 : splitSeq closeBraces
      (((('{' :: '#' :: 'i' :: 'f' :: ' ' ::
        (p.data ++ (closeBraces ++
          (('{' :: '{' :: (name.data ++ ['}', '}'])) ++
            (endIfMarker ++ b))))) : List Char)).drop 4) =
      some (' ' :: p.data,
        ('{' :: '{' :: (name.data ++ ['}', '}'])) ++ (endIfMarker ++ b)) := by
    show splitSeq closeBraces
      (' ' :: (p.data ++ (closeBraces ++
        (('{' :: '{' :: (name.data ++ ['}', '}'])) ++ (endIfMarker ++ b))))) = _
    have := splitSeq_junction '}' ['}'] (' ' :: p.data)
      (('{' :: '{' :: (name.data ++ ['}', '}'])) ++ (endIfMarker ++ b)) ha
    rw [← this]
    congr 1
    simp [closeBraces]
  have h2 := splitSeq_endIf_after_ph name b hname
  have hstep := processConds_if_some ctx '{'
    ('{' :: '#' :: 'i' :: 'f' :: ' ' ::
      (p.data ++ (closeBraces ++
        (('{' :: '{' :: (name.data ++ ['}', '}'])) ++ (endIfMarker ++ b)))))
    (' ' :: p.data)
    (('{' :: '{' :: (name.data ++ ['}', '}'])) ++ (endIfMarker ++ b))
    ('{' :: '{' :: (name.data ++ ['}', '}'])) b
    (by
      have := isPrefixOf_append_self ifMarker
        (p.data ++ (closeBraces ++
          (('{' :: '{' :: (name.data ++ ['}', '}'])) ++ (endIfMarker ++ b))))
      simpa [ifMarker] using this)
    h1 h2
  have htrim : trimChars (' ' :: p.data) = p.data := by
    rw [trimChars_cons_space, trimChars_nows _ (ident_nows _ (ident_chars hp))]
  rw [htrim, mk_data] at hstep
  exact hstep

lemma data_empty : ("" : String).data = [] := rfl

lemma forall_ne_append {xs ys : List Char}
    (hx : ∀ c ∈ xs, c ≠ '{') (hy : ∀ c ∈ ys, c ≠ '{') :
    ∀ c ∈ xs ++ ys, c ≠ '{' := by
  intro c hc
  rcases List.mem_append.mp hc with h | h
  · exact hx c h
  · exact hy c h

-- ═════════════════════════════════════════════════════════════════════
-- Claim C5
-- ═════════════════════════════════════════════════════════════════════

/-- C5: conditional blocks.  A block whose predicate is false is removed
entirely, delimiters included; a block whose predicate is true keeps its
inner content verbatim with only the delimiters removed (and placeholders
nested in kept content are still substituted); each block in a document
is evaluated independently, blocks may span multiple lines, and an
unknown predicate is treated as false. -/
theorem renderTemplate_conditional_rules (ctx : RenderCtx)
    (p1 p2 q name v : String) (pre mid post c1 c2 : String)
    (hpre : pre.data.all (fun c => !(c == '{')) = true)
    (hmid : mid.data.all (fun c => !(c == '{')) = true)
    (hpost : post.data.all (fun c => !(c == '{')) = true)
    (hc1 : c1.data.all (fun c => !(c == '{')) = true)
    (hc2 : c2.data.all (fun c => !(c == '{')) = true)
    (hp1 : p1.data.all identChar = true)
    (hp2 : p2.data.all identChar = true)
    (hname : name.data.all identChar = true) :
    renderTemplate (pre ++ ifBlock p1 c1 ++ mid ++ ifBlock p2 c2 ++ post) ctx =
      pre ++ (if evalPredicate ctx p1 = true then c1 else "") ++ mid ++
        (if evalPredicate ctx p2 = true then c2 else "") ++ post ∧
    (resolveVar ctx name = some v →
      renderTemplate (ifBlock p1 (phOpen ++ name ++ phClose)) ctx =
        (if evalPredicate ctx p1 = true then v else "")) ∧
    (q ≠ "language_is_typescript" → q ≠ "language_is_python" →
      evalPredicate ctx q = false) := by
  refine ⟨?_, ?_, ?_⟩
  · apply string_ext_data
    show (String.mk (substAux ctx (processConds ctx
        (pre ++ ifBlock p1 c1 ++ mid ++ ifBlock p2 c2 ++ post).data))).data = _
    have hdata : (pre ++ ifBlock p1 c1 ++ mid ++ ifBlock p2 c2 ++ post).data =
        pre.data ++ (ifMarker ++ (p1.data ++ (closeBraces ++ (c1.data ++
          (endIfMarker ++ (mid.data ++ (ifMarker ++ (p2.data ++ (closeBraces ++
            (c2.data ++ (endIfMarker ++ post.data))))))))))) := by
      simp [ifBlock, phOpen, phClose, data_append, data_mk, ifMarker,
        endIfMarker, closeBraces, openBraces]
    rw [data_mk, hdata,
      processConds_append_pass ctx pre.data _ (noBrace_chars hpre),
      processConds_block ctx p1 c1.data _ hp1 (noBrace_chars hc1),
      processConds_append_pass ctx mid.data _ (noBrace_chars hmid),
      processConds_block ctx p2 c2.data _ hp2 (noBrace_chars hc2),
      processConds_id_pass ctx post.data (noBrace_chars hpost)]
    have hITE1 : ∀ c ∈ (if evalPredicate ctx p1 = true then c1.data else []),
        c ≠ '{' := by
      by_cases h : evalPredicate ctx p1 = true
      · simp only [h, if_true]
        exact noBrace_chars hc1
      · simp only [h, if_false]
        intro c hc
        exact absurd hc (List.not_mem_nil c)
    have hITE2 : ∀ c ∈ (if evalPredicate ctx p2 = true then c2.data else []),
        c ≠ '{' := by
      by_cases h : evalPredicate ctx p2 = true
      · simp only [h, if_true]
        exact noBrace_chars hc2
      · simp only [h, if_false]
        intro c hc
        exact absurd hc (List.not_mem_nil c)
    rw [substAux_id_pass ctx _
      (forall_ne_append (noBrace_chars hpre)
        (forall_ne_append hITE1
          (forall_ne_append (noBrace_chars hmid)
            (forall_ne_append hITE2 (noBrace_chars hpost)))))]
    simp [data_append, apply_ite String.data, data_empty]
  · intro hres
    apply string_ext_data
    show (String.mk (substAux ctx (processConds ctx
        (ifBlock p1 (phOpen ++ name ++ phClose)).data))).data = _
    have hdata2 : (ifBlock p1 (phOpen ++ name ++ phClose)).data =
        ifMarker ++ (p1.data ++ (closeBraces ++
          (('{' :: '{' :: (name.data ++ ['}', '}'])) ++
            (endIfMarker ++ ([] : List Char))))) := by
      simp [ifBlock, phOpen, phClose, data_append, data_mk, ifMarker,
        endIfMarker, closeBraces, openBraces]
    rw [data_mk, hdata2, processConds_block_ph ctx p1 name [] hp1 hname,
      processConds_nil, List.append_nil]
    by_cases he : evalPredicate ctx p1 = true
    · simp only [he, if_true]
      have hplace := substAux_placeholder ctx name.data []
        (fun c hc => (identChar_ne c (ident_chars hname c hc)).2.1)
      have hshape : ('{' :: '{' :: (name.data ++ ['}', '}'])) =
          '{' :: '{' :: (name.data ++ ('}' :: '}' :: ([] : List Char))) := by
        simp
      rw [hshape, hplace,
        renderPlaceholder_ident_resolved ctx name v hname hres,
        substAux_nil, List.append_nil]
    · simp only [Bool.not_eq_true] at he
      simp [he, substAux_nil, data_empty]
  · intro hq1 hq2
    unfold evalPredicate
    rw [if_neg hq1, if_neg hq2]

/-- Witness for C5 at the inputs of the renderer test suite: one true and
one false block in the same document (independent evaluation), a
placeholder nested in a kept block, and an unknown predicate. -/
theorem renderTemplate_conditional_rules_witness :
    renderTemplate ("before " ++ ifBlock "language_is_typescript" "TS content" ++
        " and " ++ ifBlock "language_is_python" "PY" ++ " after")
        [("language", "typescript"), ("projectName", "Foo")] =
      "before " ++
        (if evalPredicate [("language", "typescript"), ("projectName", "Foo")]
            "language_is_typescript" = true then "TS content" else "") ++
        " and " ++
        (if evalPredicate [("language", "typescript"), ("projectName", "Foo")]
            "language_is_python" = true then "PY" else "") ++ " after" ∧
    (resolveVar [("language", "typescript"), ("projectName", "Foo")]
        "projectName" = some "Foo" →
      renderTemplate (ifBlock "language_is_typescript"
          (phOpen ++ "projectName" ++ phClose))
          [("language", "typescript"), ("projectName", "Foo")] =
        (if evalPredicate [("language", "typescript"), ("projectName", "Foo")]
            "language_is_typescript" = true then "Foo" else "")) ∧
    ("custom_pred" ≠ "language_is_typescript" →
      "custom_pred" ≠ "language_is_python" →
      evalPredicate [("language", "typescript"), ("projectName", "Foo")]
        "custom_pred" = false) :=
  renderTemplate_conditional_rules
    [("language", "typescript"), ("projectName", "Foo")]
    "language_is_typescript" "language_is_python" "custom_pred" "projectName"
    "Foo" "before " " and " " after" "TS content" "PY"
    (by decide) (by decide) (by decide) (by decide) (by decide) (by decide)
    (by decide) (by decide)

-- ═════════════════════════════════════════════════════════════════════
-- Lemmas: deduplication loops
-- ═════════════════════════════════════════════════════════════════════

lemma foldl_dedupStep_decomp {α : Type} (key : α → String) :
    ∀ (l acc : List α), ∃ ext,
      l.foldl (dedupStep key) acc = acc ++ ext ∧
      (∀ y ∈ ext, y ∈ l) ∧ (∀ y ∈ ext, key y ∉ acc.map key) := by
  intro l
  induction l with
  | nil =>
    intro acc
    exact ⟨[], by simp, by simp, by simp⟩
  | cons x xs ih =>
    intro acc
    by_cases hm : ((acc.map key).contains (key x)) = true
    · have hstep : dedupStep key acc x = acc := by
        unfold dedupStep
        rw [hm]
        simp
      rcases ih acc with ⟨ext, h1, h2, h3⟩
      refine ⟨ext, ?_, ?_, h3⟩
      · simp only [List.foldl_cons, hstep, h1]
      · exact fun y hy => List.mem_cons_of_mem x (h2 y hy)
    · have hstep : dedupStep key acc x = acc ++ [x] := by
        unfold dedupStep
        simp only [Bool.not_eq_true] at hm
        rw [hm]
        simp
      have hxnot : key x ∉ acc.map key := by
        simp only [Bool.not_eq_true] at hm
        exact fun hmem => by
          rw [contains_true_of_mem _ _ hmem] at hm
          exact Bool.noConfusion hm
      rcases ih (acc ++ [x]) with ⟨ext, h1, h2, h3⟩
      refine ⟨x :: ext, ?_, ?_, ?_⟩
      · simp only [List.foldl_cons, hstep, h1]
        simp
      · intro y hy
        rcases List.mem_cons.mp hy with rfl | hy2
        · exact List.mem_cons_self y xs
        · exact List.mem_cons_of_mem x (h2 y hy2)
      · intro y hy
        rcases List.mem_cons.mp hy with rfl | hy2
        · exact hxnot
        · intro hmem
          exact h3 y hy2 (by simp [hmem])

lemma foldl_dedupStep_mem {α : Type} (key : α → String) (l acc : List α)
    (y : α) (hy : y ∈ l.foldl (dedupStep key) acc) : y ∈ acc ∨ y ∈ l := by
  rcases foldl_dedupStep_decomp key l acc with ⟨ext, h1, h2, _⟩
  rw [h1] at hy
  rcases List.mem_append.mp hy with h | h
  · exact Or.inl h
  · exact Or.inr (h2 y h)

lemma foldl_dedupStep_keys_mono {α : Type} (key : α → String) (l acc : List α)
    (k : String) (hk : k ∈ acc.map key) :
    k ∈ (l.foldl (dedupStep key) acc).map key := by
  rcases foldl_dedupStep_decomp key l acc with ⟨ext, h1, _, _⟩
  rw [h1]
  simp only [List.map_append, List.mem_append]
  exact Or.inl hk

lemma foldl_dedupStep_keys {α : Type} (key : α → String) :
    ∀ (l acc : List α) (x : α), x ∈ l →
      key x ∈ (l.foldl (dedupStep key) acc).map key := by
  intro l
  induction l with
  | nil =>
    intro acc x hx
    exact absurd hx (List.not_mem_nil x)
  | cons z zs ih =>
    intro acc x hx
    rcases List.mem_cons.mp hx with rfl | hx2
    · by_cases hm : ((acc.map key).contains (key x)) = true
      · have hstep : dedupStep key acc x = acc := by
          unfold dedupStep
          rw [hm]
          simp
        simp only [List.foldl_cons, hstep]
        exact foldl_dedupStep_keys_mono key zs acc (key x)
          (List.elem_iff.mp hm)
      · have hstep : dedupStep key acc x = acc ++ [x] := by
          unfold dedupStep
          simp only [Bool.not_eq_true] at hm
          rw [hm]
          simp
        simp only [List.foldl_cons, hstep]
        exact foldl_dedupStep_keys_mono key zs (acc ++ [x]) (key x)
          (by simp)
    · simp only [List.foldl_cons]
      exact ih (dedupStep key acc z) x hx2

lemma foldl_dedupStep_nodup {α : Type} (key : α → String) :
    ∀ (l acc : List α), (acc.map key).Nodup →
      ((l.foldl (dedupStep key) acc).map key).Nodup := by
  intro l
  induction l with
  | nil => intro acc h; exact h
  | cons x xs ih =>
    intro acc h
    by_cases hm : ((acc.map key).contains (key x)) = true
    · have hstep : dedupStep key acc x = acc := by
        unfold dedupStep
        rw [hm]
        simp
      simp only [List.foldl_cons, hstep]
      exact ih acc h
    · have hstep : dedupStep key acc x = acc ++ [x] := by
        unfold dedupStep
        simp only [Bool.not_eq_true] at hm
        rw [hm]
        simp
      have hxnot : key x ∉ acc.map key := by
        simp only [Bool.not_eq_true] at hm
        exact fun hmem => by
          rw [contains_true_of_mem _ _ hmem] at hm
          exact Bool.noConfusion hm
      simp only [List.foldl_cons, hstep]
      apply ih
      simp only [List.map_append, List.map_cons, List.map_nil]
      rw [List.nodup_append]
      exact ⟨h, List.nodup_singleton _, by simpa using hxnot⟩

lemma dedupBy_mem {α : Type} (key : α → String) (l : List α) (y : α)
    (hy : y ∈ dedupBy key l) : y ∈ l := by
  rcases foldl_dedupStep_mem key l [] y hy with h | h
  · exact absurd h (List.not_mem_nil y)
  · exact h

lemma dedupBy_nodup {α : Type} (key : α → String) (l : List α) :
    ((dedupBy key l).map key).Nodup :=
  foldl_dedupStep_nodup key l [] (by simp)

lemma dedupBy_keys {α : Type} (key : α → String) (l : List α) (x : α)
    (hx : x ∈ l) : key x ∈ (dedupBy key l).map key :=
  foldl_dedupStep_keys key l [] x hx

lemma dedupBy_first_wins {α : Type} (key : α → String) (a b : List α) (y : α)
    (hy : y ∈ dedupBy key (a ++ b)) (hk : key y ∈ a.map key) : y ∈ a := by
  unfold dedupBy at hy
  rw [List.foldl_append] at hy
  rcases foldl_dedupStep_decomp key b (a.foldl (dedupStep key) []) with
    ⟨ext, h1, _, h3⟩
  rw [h1] at hy
  rcases List.mem_append.mp hy with hmem | hmem
  · exact dedupBy_mem key a y hmem
  · exfalso
    rcases List.mem_map.mp hk with ⟨x, hxa, hxk⟩
    have := dedupBy_keys key a x hxa
    rw [hxk] at this
    exact h3 y hmem this

-- ═════════════════════════════════════════════════════════════════════
-- Lemmas: discovery service
-- ═════════════════════════════════════════════════════════════════════

lemma deduplicateServers_spec (localRecs remoteRecs : List McpServerRecommendation) :
    ((deduplicateServers localRecs remoteRecs).map (fun r => r.name)).Nodup ∧
    (∀ r ∈ deduplicateServers localRecs remoteRecs,
      r.name ∈ localRecs.map (fun r => r.name) → r ∈ localRecs) ∧
    (∀ l ∈ localRecs,
      l.name ∈ (deduplicateServers localRecs remoteRecs).map (fun r => r.name)) := by
  have hperm : ((dedupBy (fun r => r.name) (localRecs ++ remoteRecs)).mergeSort
      recLE).Perm (dedupBy (fun r => r.name) (localRecs ++ remoteRecs)) :=
    List.mergeSort_perm _ _
  refine ⟨?_, ?_, ?_⟩
  · have := dedupBy_nodup (fun r => r.name) (localRecs ++ remoteRecs)
    unfold deduplicateServers
    exact ((hperm.map (fun r => r.name)).nodup_iff).mpr this
  · intro r hr hname
    unfold deduplicateServers at hr
    have hr2 : r ∈ dedupBy (fun r => r.name) (localRecs ++ remoteRecs) :=
      hperm.mem_iff.mp hr
    exact dedupBy_first_wins (fun r => r.name) localRecs remoteRecs r hr2 hname
  · intro l hl
    unfold deduplicateServers
    have := dedupBy_keys (fun r => r.name) (localRecs ++ remoteRecs) l
      (List.mem_append.mpr (Or.inl hl))
    exact ((hperm.map (fun r => r.name)).mem_iff).mpr this

lemma loadLocalServers_source (templates : String → Option (List McpServerEntry))
    (tags : List String) :
    ∀ r ∈ loadLocalServers templates tags, r.source = McpSource.builtin := by
  intro r hr
  unfold loadLocalServers at hr
  rcases List.mem_map.mp hr with ⟨e, _, rfl⟩
  rfl

lemma fetchRemoteServers_failure (tags : List String) (outcome : RemoteOutcome)
    (h : outcome.isFailure = true) : fetchRemoteServers tags outcome = [] := by
  cases outcome with
  | ok entries => simp [RemoteOutcome.isFailure] at h
  | fetchFailed => rfl
  | httpError s => rfl
  | missingServers => rfl

-- ═════════════════════════════════════════════════════════════════════
-- Claim C6
-- ═════════════════════════════════════════════════════════════════════

/-- C6: with remote discovery enabled, a remote failure (network error or
timeout abort, non-success HTTP status, or a body missing the `servers`
array) never surfaces to the caller: `discoverServers` returns the same
result as a local-only call, that result is the deduplicated local
recommendations, and every returned recommendation is a local one. -/
theorem discoverServers_remote_failure_degrades
    (templates : String → Option (List McpServerEntry))
    (defaultUrl : String) (tags : List String)
    (opts : McpDiscoveryOptions) (outcome : RemoteOutcome)
    (hrem : opts.includeRemote = true)
    (hfail : outcome.isFailure = true) :
    discoverServers templates defaultUrl tags opts outcome =
      discoverServers templates defaultUrl tags
        { includeRemote := false, remoteRegistryUrl := opts.remoteRegistryUrl }
        outcome ∧
    discoverServers templates defaultUrl tags opts outcome =
      deduplicateServers (loadLocalServers templates tags) [] ∧
    ∀ r ∈ discoverServers templates defaultUrl tags opts outcome,
      r.source = McpSource.builtin := by
  have hfetch := fetchRemoteServers_failure tags outcome hfail
  have heq : discoverServers templates defaultUrl tags opts outcome =
      deduplicateServers (loadLocalServers templates tags) [] := by
    unfold discoverServers
    rw [hfetch]
    simp
  refine ⟨?_, heq, ?_⟩
  · rw [heq]
    unfold discoverServers
    simp
  · intro r hr
    rw [heq] at hr
    unfold deduplicateServers at hr
    have hperm := List.mergeSort_perm
      (dedupBy (fun r => r.name) (loadLocalServers templates tags ++ [])) recLE
    have hr2 := hperm.mem_iff.mp hr
    have hr3 := dedupBy_mem _ _ _ hr2
    rw [List.append_nil] at hr3
    exact loadLocalServers_source templates tags r hr3

/-- A curated server entry used to instantiate the discovery theorems. -/
def sampleEntry (nm : String) (tgs : List String) : McpServerEntry :=
  { name := nm, description := "d", command := "npx", args := ["-y", nm],
    env := [], tags := tgs, category := "general", url := "u", tier := "core" }

/-- A loaded template map with servers for the UNIVERSAL tag only. -/
def sampleTemplates : String → Option (List McpServerEntry) :=
  fun t => if t = "UNIVERSAL" then
    some [sampleEntry "forgecraft" ["UNIVERSAL"],
      sampleEntry "context7" ["UNIVERSAL"]]
  else none

/-- Witness for C6: a fetch failure with remote discovery enabled. -/
theorem discoverServers_remote_failure_degrades_witness :
    discoverServers sampleTemplates "" ["UNIVERSAL"]
        { includeRemote := true,
          remoteRegistryUrl := some "https://example.com/broken.json" }
        RemoteOutcome.fetchFailed =
      discoverServers sampleTemplates "" ["UNIVERSAL"]
        { includeRemote := false,
          remoteRegistryUrl := some "https://example.com/broken.json" }
        RemoteOutcome.fetchFailed ∧
    discoverServers sampleTemplates "" ["UNIVERSAL"]
        { includeRemote := true,
          remoteRegistryUrl := some "https://example.com/broken.json" }
        RemoteOutcome.fetchFailed =
      deduplicateServers (loadLocalServers sampleTemplates ["UNIVERSAL"]) [] ∧
    ∀ r ∈ discoverServers sampleTemplates "" ["UNIVERSAL"]
        { includeRemote := true,
          remoteRegistryUrl := some "https://example.com/broken.json" }
        RemoteOutcome.fetchFailed,
      r.source = McpSource.builtin :=
  discoverServers_remote_failure_degrades sampleTemplates "" ["UNIVERSAL"]
    { includeRemote := true,
      remoteRegistryUrl := some "https://example.com/broken.json" }
    RemoteOutcome.fetchFailed (by decide) (by decide)

-- ═════════════════════════════════════════════════════════════════════
-- Claim C7
-- ═════════════════════════════════════════════════════════════════════

/-- C7: the list returned by `discoverServers` never contains two
recommendations with the same name; an entry whose name also occurs among
the locally loaded recommendations is itself the local entry (first wins,
local over remote), and every local recommendation's name survives into
the result. -/
theorem discoverServers_unique_names_local_priority
    (templates : String → Option (List McpServerEntry))
    (defaultUrl : String) (tags : List String)
    (opts : McpDiscoveryOptions) (outcome : RemoteOutcome) :
    ((discoverServers templates defaultUrl tags opts outcome).map
        (fun r => r.name)).Nodup ∧
    (∀ r ∈ discoverServers templates defaultUrl tags opts outcome,
      r.name ∈ (loadLocalServers templates tags).map (fun r => r.name) →
        r ∈ loadLocalServers templates tags) ∧
    (∀ l ∈ loadLocalServers templates tags,
      l.name ∈ (discoverServers templates defaultUrl tags opts outcome).map
        (fun r => r.name)) :=
  deduplicateServers_spec (loadLocalServers templates tags) _

/-- Witness for C7: a remote payload that shares the name `forgecraft`
with a local entry and adds a new name. -/
theorem discoverServers_unique_names_local_priority_witness :
    ((discoverServers sampleTemplates "" ["UNIVERSAL"]
        { includeRemote := true, remoteRegistryUrl := some "u" }
        (RemoteOutcome.ok [sampleEntry "forgecraft" ["UNIVERSAL"],
          sampleEntry "remote-only-server" ["UNIVERSAL"]])).map
        (fun r => r.name)).Nodup ∧
    (∀ r ∈ discoverServers sampleTemplates "" ["UNIVERSAL"]
        { includeRemote := true, remoteRegistryUrl := some "u" }
        (RemoteOutcome.ok [sampleEntry "forgecraft" ["UNIVERSAL"],
          sampleEntry "remote-only-server" ["UNIVERSAL"]]),
      r.name ∈ (loadLocalServers sampleTemplates ["UNIVERSAL"]).map
          (fun r => r.name) →
        r ∈ loadLocalServers sampleTemplates ["UNIVERSAL"]) ∧
    (∀ l ∈ loadLocalServers sampleTemplates ["UNIVERSAL"],
      l.name ∈ (discoverServers sampleTemplates "" ["UNIVERSAL"]
        { includeRemote := true, remoteRegistryUrl := some "u" }
        (RemoteOutcome.ok [sampleEntry "forgecraft" ["UNIVERSAL"],
          sampleEntry "remote-only-server" ["UNIVERSAL"]])).map
        (fun r => r.name)) :=
  discoverServers_unique_names_local_priority sampleTemplates "" ["UNIVERSAL"]
    { includeRemote := true, remoteRegistryUrl := some "u" }
    (RemoteOutcome.ok [sampleEntry "forgecraft" ["UNIVERSAL"],
      sampleEntry "remote-only-server" ["UNIVERSAL"]])

-- ═════════════════════════════════════════════════════════════════════
-- Claim C8
-- ═════════════════════════════════════════════════════════════════════

/-- C8: both tool handlers normalize `[X]` and `[UNIVERSAL, X]` to the
same tag list — the implicit universal tag is prepended when absent and
never duplicated when present — so the whole downstream pipeline, a
function of the normalized tag list, yields identical results for the
two calls. -/
theorem universal_tag_normalization (X : String) (hx : X ≠ "UNIVERSAL") :
    generateInstructionsTags [X] = ["UNIVERSAL", X] ∧
    generateInstructionsTags ["UNIVERSAL", X] = ["UNIVERSAL", X] ∧
    scaffoldProjectTags [X] = ["UNIVERSAL", X] ∧
    scaffoldProjectTags ["UNIVERSAL", X] = ["UNIVERSAL", X] ∧
    (∀ (β : Type) (pipeline : List String → β),
      pipeline (generateInstructionsTags [X]) =
        pipeline (generateInstructionsTags ["UNIVERSAL", X]) ∧
      pipeline (scaffoldProjectTags [X]) =
        pipeline (scaffoldProjectTags ["UNIVERSAL", X])) := by
  have habsent : ([X].contains "UNIVERSAL") = false := by
    apply contains_false_of_not_mem
    intro hm
    exact hx (List.mem_singleton.mp hm).symm
  have hpresent : (["UNIVERSAL", X].contains "UNIVERSAL") = true :=
    contains_true_of_mem _ _ (List.mem_cons_self _ _)
  have h1 : generateInstructionsTags [X] = ["UNIVERSAL", X] := by
    unfold generateInstructionsTags
    rw [habsent]
    simp
  have h2 : generateInstructionsTags ["UNIVERSAL", X] = ["UNIVERSAL", X] := by
    unfold generateInstructionsTags
    rw [hpresent]
    simp
  have h3 : scaffoldProjectTags [X] = ["UNIVERSAL", X] := by
    unfold scaffoldProjectTags
    rw [habsent]
    simp
  have h4 : scaffoldProjectTags ["UNIVERSAL", X] = ["UNIVERSAL", X] := by
    unfold scaffoldProjectTags
    rw [hpresent]
    simp
  refine ⟨h1, h2, h3, h4, ?_⟩
  intro β pipeline
  rw [h1, h2, h3, h4]
  exact ⟨rfl, rfl⟩

/-- Witness for C8 at the tag `API`, with the per-category count as a
concrete downstream pipeline. -/
theorem universal_tag_normalization_witness :
    generateInstructionsTags ["API"] = ["UNIVERSAL", "API"] ∧
    generateInstructionsTags ["UNIVERSAL", "API"] = ["UNIVERSAL", "API"] ∧
    scaffoldProjectTags ["API"] = ["UNIVERSAL", "API"] ∧
    scaffoldProjectTags ["UNIVERSAL", "API"] = ["UNIVERSAL", "API"] ∧
    (fun tags => tags.length) (generateInstructionsTags ["API"]) =
      (fun tags => tags.length) (generateInstructionsTags ["UNIVERSAL", "API"]) := by
  have h := universal_tag_normalization "API" (by decide)
  exact ⟨h.1, h.2.1, h.2.2.1, h.2.2.2.1,
    (h.2.2.2.2 Nat (fun tags => tags.length)).1⟩

-- ═════════════════════════════════════════════════════════════════════
-- Lemmas: JS object-spread merge
-- ═════════════════════════════════════════════════════════════════════

lemma lookup_append {α : Type} (k : String) (xs ys : List (String × α)) :
    List.lookup k (xs ++ ys) =
      match List.lookup k xs with
      | some v => some v
      | none => List.lookup k ys := by
  induction xs with
  | nil => simp [List.lookup]
  | cons p ps ih =>
    rcases p with ⟨k1, v1⟩
    by_cases hk : (k == k1) = true
    · simp [List.lookup, hk]
    · simp only [Bool.not_eq_true] at hk
      simp [List.lookup, hk, ih]

lemma lookup_map_override {α : Type} (a b : List (String × α)) (k : String) :
    List.lookup k (a.map (fun p =>
        match List.lookup p.1 b with
        | some v => (p.1, v)
        | none => p)) =
      match List.lookup k a with
      | some v => some ((List.lookup k b).getD v)
      | none => none := by
  induction a with
  | nil => simp [List.lookup]
  | cons p ps ih =>
    rcases p with ⟨k1, v1⟩
    cases hb : List.lookup k1 b with
    | none =>
      by_cases hk : (k == k1) = true
      · have hkk : k = k1 := beq_iff_eq.mp hk
        subst hkk
        simp [List.lookup, hb]
      · simp only [Bool.not_eq_true] at hk
        simp [List.lookup, hk, ih, hb]
    | some w =>
      by_cases hk : (k == k1) = true
      · have hkk : k = k1 := beq_iff_eq.mp hk
        subst hkk
        simp [List.lookup, hb]
      · simp only [Bool.not_eq_true] at hk
        simp [List.lookup, hk, ih, hb]

lemma lookup_filter_keydep {α : Type} (q : String → Bool)
    (b : List (String × α)) (k : String) :
    List.lookup k (b.filter (fun p => q p.1)) =
      if q k then List.lookup k b else none := by
  induction b with
  | nil => simp [List.lookup]
  | cons p ps ih =>
    rcases p with ⟨k1, v1⟩
    by_cases hq : q k1 = true
    · by_cases hk : (k == k1) = true
      · have hkk : k = k1 := beq_iff_eq.mp hk
        subst hkk
        simp [List.filter_cons, hq, List.lookup]
      · simp only [Bool.not_eq_true] at hk
        simp [List.filter_cons, hq, List.lookup, hk, ih]
    · simp only [Bool.not_eq_true] at hq
      by_cases hk : (k == k1) = true
      · have hkk : k = k1 := beq_iff_eq.mp hk
        subst hkk
        simp [List.filter_cons, hq, ih]
      · simp only [Bool.not_eq_true] at hk
        simp [List.filter_cons, hq, List.lookup, hk, ih]

lemma jsObjMerge_lookup {α : Type} (a b : List (String × α)) (k : String) :
    List.lookup k (jsObjMerge a b) =
      match List.lookup k b with
      | some v => some v
      | none => List.lookup k a := by
  unfold jsObjMerge
  rw [lookup_append, lookup_map_override,
    lookup_filter_keydep (fun s => (List.lookup s a).isNone) b k]
  cases ha : List.lookup k a with
  | none =>
    simp only [ha, Option.isNone_none, if_true]
    cases hb : List.lookup k b <;> simp
  | some v =>
    simp only [ha, Option.isNone_some, Bool.false_eq_true, if_false]
    cases hb : List.lookup k b <;> simp

lemma dedupBy_id_mem_iff (l : List String) (s : String) :
    s ∈ dedupBy (fun x => x) l ↔ s ∈ l := by
  constructor
  · exact dedupBy_mem _ l s
  · intro hs
    have := dedupBy_keys (fun x => x) l s hs
    simpa using this

lemma dedupBy_id_nodup (l : List String) : (dedupBy (fun x => x) l).Nodup := by
  have := dedupBy_nodup (fun x => x) l
  simpa using this

-- ═════════════════════════════════════════════════════════════════════
-- Claim C9
-- ═════════════════════════════════════════════════════════════════════

/-- C9: merging newly generated settings into an existing parseable
settings record is field-by-field: under `mcpServers` every newly
configured server replaces the existing entry of the same name while
existing servers not named in the new record are preserved; every other
existing top-level key except `permissions` and `mcpServers` is
preserved; and the `permissions.allow` list of the result is the union of
the existing rules and the new rules with duplicates removed. -/
theorem configureMcp_merge_field_precedence
    (existing mcpConfig : List (String × SettingsVal))
    (permissionRules : List String) :
    List.lookup "mcpServers" (configMergeSettings existing mcpConfig permissionRules) =
      some (.obj (jsObjMerge (objAt "mcpServers" existing) mcpConfig)) ∧
    (∀ nm cfg, List.lookup nm mcpConfig = some cfg →
      List.lookup nm (jsObjMerge (objAt "mcpServers" existing) mcpConfig) =
        some cfg) ∧
    (∀ nm, List.lookup nm mcpConfig = none →
      List.lookup nm (jsObjMerge (objAt "mcpServers" existing) mcpConfig) =
        List.lookup nm (objAt "mcpServers" existing)) ∧
    (∀ k, k ≠ "permissions" → k ≠ "mcpServers" →
      List.lookup k (configMergeSettings existing mcpConfig permissionRules) =
        List.lookup k existing) ∧
    (∀ s, s ∈ allowAt (objAt "permissions"
          (configMergeSettings existing mcpConfig permissionRules)) ↔
        (s ∈ allowAt (objAt "permissions" existing) ∨ s ∈ permissionRules)) ∧
    (allowAt (objAt "permissions"
      (configMergeSettings existing mcpConfig permissionRules))).Nodup := by
  have hlook := fun k => jsObjMerge_lookup existing
    [("permissions", SettingsVal.obj (jsObjMerge (objAt "permissions" existing)
        [("allow", SettingsVal.strList (dedupBy (fun s => s)
          (allowAt (objAt "permissions" existing) ++ permissionRules)))])),
     ("mcpServers", SettingsVal.obj
        (jsObjMerge (objAt "mcpServers" existing) mcpConfig))] k
  have hservers : List.lookup "mcpServers"
      (configMergeSettings existing mcpConfig permissionRules) =
      some (.obj (jsObjMerge (objAt "mcpServers" existing) mcpConfig)) := by
    unfold configMergeSettings
    rw [hlook "mcpServers"]
    simp [List.lookup]
  have hperms : List.lookup "permissions"
      (configMergeSettings existing mcpConfig permissionRules) =
      some (.obj (jsObjMerge (objAt "permissions" existing)
        [("allow", SettingsVal.strList (dedupBy (fun s => s)
          (allowAt (objAt "permissions" existing) ++ permissionRules)))])) := by
    unfold configMergeSettings
    rw [hlook "permissions"]
    simp [List.lookup]
  have hallow : allowAt (objAt "permissions"
      (configMergeSettings existing mcpConfig permissionRules)) =
      dedupBy (fun s => s)
        (allowAt (objAt "permissions" existing) ++ permissionRules) := by
    unfold objAt
    rw [hperms]
    unfold allowAt
    rw [jsObjMerge_lookup]
    simp [List.lookup]
    rfl
  refine ⟨hservers, ?_, ?_, ?_, ?_, ?_⟩
  · intro nm cfg hnm
    rw [jsObjMerge_lookup, hnm]
  · intro nm hnm
    rw [jsObjMerge_lookup, hnm]
  · intro k hk1 hk2
    unfold configMergeSettings
    rw [hlook k]
    have e1 : (k == ("permissions" : String)) = false :=
      beq_eq_false_iff_ne.mpr hk1
    have e2 : (k == ("mcpServers" : String)) = false :=
      beq_eq_false_iff_ne.mpr hk2
    simp [List.lookup, e1, e2]
  · intro s
    rw [hallow, dedupBy_id_mem_iff]
    exact List.mem_append
  · rw [hallow]
    exact dedupBy_id_nodup _

/-- Existing settings fixture: an unrelated key, permission rules with an
entry shared with the new rules, and one already-configured server. -/
def wExisting : List (String × SettingsVal) :=
  [("env", .str "production"),
   ("permissions", .obj [("allow", .strList ["Bash", "mcp__github__*"])]),
   ("mcpServers", .obj [("old-server", .obj [("command", .str "node")])])]

/-- Newly configured servers fixture. -/
def wMcpConfig : List (String × SettingsVal) :=
  [("github", .obj [("command", .str "npx")])]

/-- Newly generated permission rules fixture. -/
def wRules : List String := ["mcp__github__*", "mcp__forgecraft__*"]

/-- Witness for C9 at the fixtures: the new server wins, the untouched
server and the unrelated key survive, and the allow list is the
de-duplicated union. -/
theorem configureMcp_merge_field_precedence_witness :
    List.lookup "mcpServers" (configMergeSettings wExisting wMcpConfig wRules) =
      some (.obj (jsObjMerge (objAt "mcpServers" wExisting) wMcpConfig)) ∧
    List.lookup "github" (jsObjMerge (objAt "mcpServers" wExisting) wMcpConfig) =
      some (.obj [("command", .str "npx")]) ∧
    List.lookup "old-server" (jsObjMerge (objAt "mcpServers" wExisting) wMcpConfig) =
      List.lookup "old-server" (objAt "mcpServers" wExisting) ∧
    List.lookup "env" (configMergeSettings wExisting wMcpConfig wRules) =
      List.lookup "env" wExisting ∧
    (("mcp__forgecraft__*" : String) ∈
        allowAt (objAt "permissions" (configMergeSettings wExisting wMcpConfig wRules)) ↔
      (("mcp__forgecraft__*" : String) ∈ allowAt (objAt "permissions" wExisting) ∨
        ("mcp__forgecraft__*" : String) ∈ wRules)) ∧
    (allowAt (objAt "permissions"
      (configMergeSettings wExisting wMcpConfig wRules))).Nodup := by
  have h := configureMcp_merge_field_precedence wExisting wMcpConfig wRules
  exact ⟨h.1, h.2.1 "github" (.obj [("command", .str "npx")]) rfl,
    h.2.2.1 "old-server" rfl,
    h.2.2.2.1 "env" (by decide) (by decide),
    h.2.2.2.2.1 "mcp__forgecraft__*",
    h.2.2.2.2.2⟩

-- ═════════════════════════════════════════════════════════════════════
-- Claim C10
-- ═════════════════════════════════════════════════════════════════════

/-- C10: `detectProjectContext` sets the `sensitiveData` field to "YES"
if and only if the tag list contains at least one of HEALTHCARE, HIPAA,
FINTECH or SOC2, and to "NO" otherwise, for every project directory
detection outcome and tag list. -/
theorem detectProjectContext_sensitive_data (repoUrl : String)
    (framework : Option String) (projectName language : String)
    (tags : List String) (description : Option String) :
    ((detectProjectContext repoUrl framework projectName language tags
        description).sensitiveData = "YES" ↔
      ∃ t ∈ tags, t ∈ sensitiveTags) ∧
    ((detectProjectContext repoUrl framework projectName language tags
        description).sensitiveData = "NO" ↔
      ¬ ∃ t ∈ tags, t ∈ sensitiveTags) := by
  by_cases h : tags.any (fun t => sensitiveTags.contains t) = true
  · have hex : ∃ t ∈ tags, t ∈ sensitiveTags := by
      rcases List.any_eq_true.mp h with ⟨t, ht, hc⟩
      exact ⟨t, ht, List.elem_iff.mp hc⟩
    constructor
    · constructor
      · intro _; exact hex
      · intro _
        show detectSensitiveData tags = "YES"
        unfold detectSensitiveData
        rw [h]
        simp
    · constructor
      · intro hno
        exfalso
        have : detectSensitiveData tags = "YES" := by
          unfold detectSensitiveData
          rw [h]
          simp
        rw [show (detectProjectContext repoUrl framework projectName language
          tags description).sensitiveData = detectSensitiveData tags from rfl,
          this] at hno
        exact absurd hno (by decide)
      · intro hno
        exact absurd hex hno
  · have hnex : ¬ ∃ t ∈ tags, t ∈ sensitiveTags := by
      rintro ⟨t, ht, hmem⟩
      apply h
      exact List.any_eq_true.mpr ⟨t, ht, contains_true_of_mem _ _ hmem⟩
    have hval : detectSensitiveData tags = "NO" := by
      unfold detectSensitiveData
      simp only [Bool.not_eq_true] at h
      rw [h]
      simp
    constructor
    · constructor
      · intro hyes
        exfalso
        rw [show (detectProjectContext repoUrl framework projectName language
          tags description).sensitiveData = detectSensitiveData tags from rfl,
          hval] at hyes
        exact absurd hyes (by decide)
      · intro hex
        exact absurd hex hnex
    · constructor
      · intro _; exact hnex
      · intro _
        exact hval

/-- Witness for C10: a tag list containing HIPAA yields "YES", a tag list
without sensitive tags yields "NO". -/
theorem detectProjectContext_sensitive_data_witness :
    (detectProjectContext "" none "P" "typescript" ["WEB-REACT", "HIPAA"]
      none).sensitiveData = "YES" ∧
    (detectProjectContext "" none "P" "typescript" ["API"]
      none).sensitiveData = "NO" :=
  ⟨(detectProjectContext_sensitive_data "" none "P" "typescript"
      ["WEB-REACT", "HIPAA"] none).1.mpr ⟨"HIPAA", by decide, by decide⟩,
    (detectProjectContext_sensitive_data "" none "P" "typescript"
      ["API"] none).2.mpr (by decide)⟩

end Forge
